import Mathlib

/-!
Verification development for the dynamic aggregation engine in
`src/easyapi/calc.py` (django-easyapi).

The Python source is shallowly embedded: Python dicts become insertion-ordered
association lists, fallible operations (KeyError, IndexError, SyntaxError from
`eval`) become `Option`, and the string-concatenate-then-`eval` expression
builder becomes a token-level parser implementing exactly the fragment of the
CPython expression grammar that the generated strings can exercise (atoms
`models.F("name")`, the binary operators `+ - * / ^` with CPython precedence,
and the unary signs `+`/`-`).
-/

namespace EasyApi

/-! ### Python dict model

A Python dict is modelled as an insertion-ordered association list.
`dget` is `d[k]` / `d.get(k)` (first matching key), `dset` is `d[k] = v`
(update in place if the key exists, else append). -/

def dget {κ α : Type} [DecidableEq κ] (d : List (κ × α)) (k : κ) : Option α :=
  (d.find? (fun p => decide (p.1 = k))).map (fun p => p.2)

def dset {κ α : Type} [DecidableEq κ] (d : List (κ × α)) (k : κ) (v : α) : List (κ × α) :=
  if (dget d k).isSome then d.map (fun p => if p.1 = k then (k, v) else p)
  else d ++ [(k, v)]

/-- Option-valued `mapM` over lists, written out explicitly (a Python loop that
appends, aborting on the first failure such as a `KeyError`). -/
def optMapM {α β : Type} (f : α → Option β) : List α → Option (List β)
  | [] => some []
  | a :: l =>
    match f a with
    | none => none
    | some b => (optMapM f l).map (fun l2 => b :: l2)

/-- Option-valued left fold (a Python loop threading mutable state, aborting on
the first failure). -/
def optFoldl {σ α : Type} (f : σ → α → Option σ) : σ → List α → Option σ
  | s, [] => some s
  | s, a :: l =>
    match f s a with
    | none => none
    | some s2 => optFoldl f s2 l

/-! ### Expression builder
(`aggregate`, calc.py lines 146-154, and `group_by`, lines 216-224)

The source classifies each token of a metric field list: tokens in
`['*', '+', '-', '/', '^']` are appended to the expression string verbatim and
every other token is appended as `models.F("token")`; the resulting string is
passed to Python `eval`.  `eval` is embedded in two stages.  First, `relex`
reproduces how CPython lexes the concatenated string: atoms stay atoms (the
quotes of `models.F("...")` separate them from their neighbours; column names
are taken identifier-like), and with maximal munch the only adjacent operator
characters that fuse are `*` `*` → `**` (power) and `/` `/` → `//` (floor
division).  Second, a parser implements the CPython expression grammar over
those lexemes: `**` binds tightest (right associative, `power ::= primary
["**" u_expr]`), then the unary signs `-`/`+`, then `*` `/` `//`, then
`+` `-`, then `^` (bitwise xor, loosest), the binary levels associating to
the left.  A token sequence `eval` would reject with `SyntaxError` parses to
`none`.  Expression-building errors raised by Django's `Combinable` at
evaluation time (no `__pos__`, no `__floordiv__`, `__xor__` raises) are
modelled separately by `PyExpr.evalDj`. -/

/-- Token classification from the source: `key in ['*', '+', '-', '/', '^']`. -/
def isOp (s : String) : Bool :=
  s == "*" || s == "+" || s == "-" || s == "/" || s == "^"

/-- The Python expression obtained by `eval`-ing the concatenated string:
field references, unary signs, and binary operators. -/
inductive PyExpr where
  | field (name : String)
  | neg (e : PyExpr)
  | pos (e : PyExpr)
  | bin (op : String) (a b : PyExpr)
deriving DecidableEq

/-- Numeric meaning of one binary operator.  `+`, `-`, `*` are the integer
operations; `/` (SQL division on the annotated query) is the parameter `dv`,
and every other operator string is the parameter `xw`, so each theorem that
reads a value holds for any interpretation of those operators.  Theorems
evaluate only sequences built from `+ - * /` and unary `-`; whether an
operator evaluates at all in Django is the business of `PyExpr.evalDj`. -/
def apBin (dv xw : Int → Int → Int) (op : String) (a b : Int) : Int :=
  if op = "+" then a + b
  else if op = "-" then a - b
  else if op = "*" then a * b
  else if op = "/" then dv a b
  else xw a b

/-- Evaluate a parsed expression against a row valuation `v` of the columns,
with the abstract operator semantics of `apBin` (total: it assigns the unary
`+` its CPython numeric meaning and every exotic binary operator the abstract
`xw`; Django-level evaluability is `PyExpr.evalDj` below). -/
def PyExpr.eval (dv xw : Int → Int → Int) (v : String → Int) : PyExpr → Int
  | .field n => v n
  | .neg e => - e.eval dv xw v
  | .pos e => e.eval dv xw v
  | .bin op a b => apBin dv xw op (a.eval dv xw v) (b.eval dv xw v)

/-- Evaluation as Django's `Combinable` actually performs it while `eval`
runs: `__neg__`, `__add__`, `__sub__`, `__mul__`, `__truediv__` and `__pow__`
exist (with `/` and `**` semantics external, the parameters `dv` and `pw`),
but there is no `__pos__` (unary `+` raises `TypeError`), no `__floordiv__`
(`//` raises `TypeError`), and `__xor__` raises `NotImplementedError` —
those evaluations are `none`. -/
def PyExpr.evalDj (dv pw : Int → Int → Int) (v : String → Int) : PyExpr → Option Int
  | .field n => some (v n)
  | .neg e => (e.evalDj dv pw v).map (fun x => -x)
  | .pos _ => none
  | .bin op a b =>
    match a.evalDj dv pw v, b.evalDj dv pw v with
    | some x, some y =>
      if op = "+" then some (x + y)
      else if op = "-" then some (x - y)
      else if op = "*" then some (x * y)
      else if op = "/" then some (dv x y)
      else if op = "**" then some (pw x y)
      else none
    | _, _ => none

/-- One lexeme of the concatenated expression string, as CPython's lexer sees
it: a column atom `models.F("name")` or an operator token. -/
inductive Tok where
  | col (s : String)
  | op (s : String)
deriving DecidableEq

/-- Classification of one source token, mirroring the source's membership
test `key in ['*', '+', '-', '/', '^']`. -/
def classify (t : String) : Tok :=
  if isOp t then Tok.op t else Tok.col t

/-- CPython re-lexing of the concatenated string: with maximal munch the only
adjacent single-character operators that fuse into one token are
`*` `*` → `**` and `/` `/` → `//`; every other token is classified as in the
source.  (An atom never fuses with a neighbouring operator: the quotes of
`models.F("...")` separate them.) -/
def relex : List String → List Tok
  | [] => []
  | [t] => [classify t]
  | a :: b :: rest =>
    if a = "*" ∧ b = "*" then Tok.op "**" :: relex rest
    else if a = "/" ∧ b = "/" then Tok.op "//" :: relex rest
    else classify a :: relex (b :: rest)

/-- Parse one operand (CPython `u_expr`): unary `-`/`+` signs, then an atom,
then an optional `**` exponent that is itself a `u_expr` — exactly CPython's
`power ::= primary ["**" u_expr]`, right associative and binding tighter than
the signs of the base.  A `*`, `/`, `^`, `**` or `//` cannot start an operand
(`SyntaxError`).  The fuel only serves termination; `pyParse` supplies
enough. -/
def parseUexpF : Nat → List Tok → Option (PyExpr × List Tok)
  | _, [] => none
  | 0, _ :: _ => none
  | fuel + 1, Tok.op o :: rest =>
    if o = "-" then (parseUexpF fuel rest).map (fun p => (PyExpr.neg p.1, p.2))
    else if o = "+" then (parseUexpF fuel rest).map (fun p => (PyExpr.pos p.1, p.2))
    else none
  | fuel + 1, Tok.col t :: rest =>
    match rest with
    | Tok.op o2 :: rest2 =>
      if o2 = "**" then
        match parseUexpF fuel rest2 with
        | none => none
        | some p => some (PyExpr.bin "**" (PyExpr.field t) p.1, p.2)
      else some (PyExpr.field t, rest)
    | _ => some (PyExpr.field t, rest)

/-- Parse the remaining `(binary operator, operand)` pairs after the first
operand; an atom directly following an operand is a `SyntaxError`. -/
def parseTailF : Nat → List Tok → Option (List (String × PyExpr))
  | _, [] => some []
  | 0, _ :: _ => none
  | fuel + 1, Tok.op o :: rest =>
    match parseUexpF fuel rest with
    | some (e, r) => (parseTailF fuel r).map (fun ps => (o, e) :: ps)
    | none => none
  | _ + 1, Tok.col _ :: _ => none

/-- Reduce, left to right, every operator of the given precedence level in a
flat `head + pairs` sequence, leaving the other operators in place. -/
def reduceLvl (lvl : List String) : PyExpr → List (String × PyExpr) → PyExpr × List (String × PyExpr)
  | hd, [] => (hd, [])
  | hd, (op, e) :: rest =>
    if op ∈ lvl then reduceLvl lvl (PyExpr.bin op hd e) rest
    else
      let r := reduceLvl lvl e rest
      (hd, (op, r.1) :: r.2)

/-- Assemble the expression with CPython precedence for the binary levels
below `**` (which the operand parser already consumed): first `*`/`/`/`//`,
then `+`/`-`, finally `^` (xor, the loosest). -/
def buildPrec (hd : PyExpr) (ps : List (String × PyExpr)) : PyExpr :=
  let m := reduceLvl ["*", "/", "//"] hd ps
  let a := reduceLvl ["+", "-"] m.1 m.2
  (reduceLvl ["^"] a.1 a.2).1

/-- The embedded `eval` of the concatenated expression string built by
calc.py lines 146-152 / 216-222: re-lex, then parse; `none` models a
`SyntaxError`. -/
def pyParse (toks : List String) : Option PyExpr :=
  match parseUexpF (relex toks).length (relex toks) with
  | none => none
  | some (e, rest) =>
    match parseTailF rest.length rest with
    | none => none
    | some ps => some (buildPrec e ps)

/-- Build and evaluate the metric expression for a token list against a row. -/
def pyEval (dv xw : Int → Int → Int) (v : String → Int) (toks : List String) : Option Int :=
  (pyParse toks).map (PyExpr.eval dv xw v)

/-- Modelled from the spec: a field spec is "an ordered sequence alternating
column names and operators ... interpreted strictly left-to-right in the given
order (no operator precedence)".  Helper: fold the tail of the sequence. -/
def specGo (dv xw : Int → Int → Int) (v : String → Int) : Int → List String → Option Int
  | acc, [] => some acc
  | acc, o :: c :: rest =>
    if isOp o && !isOp c then specGo dv xw v (apBin dv xw o acc (v c)) rest else none
  | _, [_] => none

/-- Modelled from the spec: strict left-to-right evaluation of an alternating
column/operator sequence, with no precedence.  Compared against `pyEval`. -/
def specLTR (dv xw : Int → Int → Int) (v : String → Int) : List String → Option Int
  | [] => none
  | c :: rest => if isOp c then none else specGo dv xw v (v c) rest

/-- Classifier for claim C3: the sequence contains two consecutive operator
tokens. -/
def hasConsecOps : List String → Bool
  | a :: b :: rest => (isOp a && isOp b) || hasConsecOps (b :: rest)
  | _ => false

/-- Classifier: some operator token is immediately followed by `*`, `/` or
`^`, EXCLUDING the two adjacent pairs `*`,`*` and `/`,`/` that CPython
re-lexes into the single tokens `**` and `//`.  Every pair this keeps is one
CPython can read neither as one fused token nor as
binary-operator-then-unary-sign. -/
def hasBadPair : List String → Bool
  | a :: b :: rest =>
    (isOp a && (b == "*" || b == "/" || b == "^") &&
      !(a == "*" && b == "*") && !(a == "/" && b == "/")) || hasBadPair (b :: rest)
  | _ => false

/-- Classifier: the sequence starts with `*`, `/` or `^`. -/
def startsWithHardOp : List String → Bool
  | t :: _ => t == "*" || t == "/" || t == "^"
  | [] => false

/-- Classifier: the sequence ends with an operator token. -/
def endsWithOp (toks : List String) : Bool :=
  match toks.getLast? with
  | some t => isOp t
  | none => false

/-- A lexeme that cannot start an operand: any operator other than the unary
signs `-` and `+`. -/
def isHard : Tok → Bool
  | Tok.op o => !(o == "-" || o == "+")
  | Tok.col _ => false

/-- Lexeme-level counterpart of `hasBadPair`, after re-lexing: some operator
lexeme is immediately followed by a lexeme that cannot start an operand. -/
def hasBadAdj : List Tok → Bool
  | Tok.op _ :: b :: rest => isHard b || hasBadAdj (b :: rest)
  | Tok.col _ :: b :: rest => hasBadAdj (b :: rest)
  | _ => false

/-! ### Aggregate functions (calc.py lines 18-26) and aggregation planning
(`aggregate`, lines 139-173, and the formula loop of `group_by`,
lines 226-238) -/

inductive AggFn where
  | avg | sum | count | min | max | variance | stddev
deriving DecidableEq

/-- The `CALC` table exactly as written in the source: note the key of the
standard-deviation entry is the two-word string. -/
def CALC : List (String × AggFn) :=
  [("avg", AggFn.avg), ("sum", AggFn.sum), ("count", AggFn.count),
   ("min", AggFn.min), ("max", AggFn.max), ("variance", AggFn.variance),
   ("std dev", AggFn.stddev)]

/-- `CALC[name]`: `none` models the `KeyError` a missing key raises. -/
def lookupCALC (s : String) : Option AggFn := dget CALC s

/-- A metric field spec: a single column name or a token list. -/
inductive FieldSpec where
  | col (s : String)
  | flist (toks : List String)
deriving DecidableEq

/-- Python truthiness of the field spec (`if not on_field`). -/
def FieldSpec.falsy : FieldSpec → Bool
  | .col s => s == ""
  | .flist l => l.isEmpty

/-- The argument handed to the aggregate constructor: a plain column name or
the `eval`-built expression. -/
inductive AggArg where
  | col (s : String)
  | expr (e : PyExpr)
deriving DecidableEq

/-- One aggregate call as the planner constructs it: the function, its
argument, whether `output_field=models.FloatField()` was forced, and the
`distinct` flag. -/
structure AggCall where
  fn : AggFn
  arg : AggArg
  outputFloat : Bool
  distinct : Bool
deriving DecidableEq

/-- Lines 146-154 / 216-224: a list field spec becomes the `eval`-ed
expression, a single name is passed through as-is. -/
def buildAggregation : FieldSpec → Option AggArg
  | .flist toks => (pyParse toks).map AggArg.expr
  | .col s => some (AggArg.col s)

/-- The aggregate call built by `aggregate` (calc.py lines 139-173) on the
ungrouped scalar-total path.  Branches in source order: `on_field == 'id'`
(plain call), `isinstance(on_field, list)` (forced `FloatField`), truthy
single field (plain call); a falsy single field leaves `data` unbound
(`NameError`, modelled as `none`). -/
def aggregatePlan (onField : FieldSpec) (calcs : List String) (distinct : Bool) : Option AggCall :=
  match calcs.head? with
  | none => none
  | some c0 =>
    match lookupCALC c0 with
    | none => none
    | some fn =>
      match buildAggregation onField with
      | none => none
      | some arg =>
        match onField with
        | .col s =>
          if s = "id" then some (AggCall.mk fn arg false distinct)
          else if s ≠ "" then some (AggCall.mk fn arg false distinct)
          else none
        | .flist _ => some (AggCall.mk fn arg true distinct)

/-- The formula dictionary built by `group_by` (calc.py lines 181-182 and
212-238): a falsy field spec falls back to `'id'`, the expression is built
once, then each requested formula is looked up in `CALC` and only `sum` forces
`output_field=models.FloatField()`. -/
def groupByFormulas (onField0 : FieldSpec) (calcs : List String) (distinct : Bool) :
    Option (List (String × AggCall)) :=
  match buildAggregation (if onField0.falsy then FieldSpec.col "id" else onField0) with
  | none => none
  | some arg =>
    optMapM (fun formula =>
      match lookupCALC formula with
      | none => none
      | some fn => some (formula, AggCall.mk fn arg (decide (formula = "sum")) distinct)) calcs

/-! ### Calendar bucketer, `quarter` granularity (class `Quarter`,
calc.py lines 40-52)

The SQL template is
`CONCAT(DATE_FORMAT(CONVERT_TZ(ts + INTERVAL s SECOND, "UTC", tz), "%Y"), " ",
CEIL(EXTRACT(MONTH from ts + INTERVAL s SECOND)/3), "Q")`.
Its year component is read off the timezone-converted timestamp while its
month component is read off the interval-shifted timestamp, so the template is
embedded as a function of the two (year, month) readings; `CEIL(m/3)` on
months `1..12` is `(m + 2) / 3` in natural division. -/

structure QDate where
  year : Nat
  month : Nat
deriving DecidableEq

/-- `CEIL(EXTRACT(MONTH ...)/3)` for a month in `1..12`. -/
def ceilMonthDiv3 (m : Nat) : Nat := (m + 2) / 3

/-- The string produced by the `Quarter` template: year, a space, the quarter
number, then the letter `Q` — in that order, as the `CONCAT` arguments have it. -/
def quarterKey (converted shifted : QDate) : String :=
  toString converted.year ++ " " ++ toString (ceilMonthDiv3 shifted.month) ++ "Q"

/-- Modelled from the spec: the claimed exact output form
`"YYYY Q<n>"` with `n = ceil(month/3)` (letter `Q` before the number). -/
def specQuarterForm (dt : QDate) : String :=
  toString dt.year ++ " Q" ++ toString (ceilMonthDiv3 dt.month)

/-- Modelled from the spec: the claimed month-to-quarter table
(months 1-3 give 1, 4-6 give 2, 7-9 give 3, 10-12 give 4). -/
def specQuarterNum (m : Nat) : Nat :=
  if m ≤ 3 then 1 else if m ≤ 6 then 2 else if m ≤ 9 then 3 else 4

/-! ### Relative date resolver (`DELTA_REGEX`, line 16, and `get_period`,
calc.py lines 277-310)

The external `Dates` collaborator (module `.dates`, not part of this file's
source) is abstracted as a parameter `getDates` mapping the regex match groups
and the timezone to a `(start, end)` pair, exactly the role calc.py's
`get_dates` dispatcher gives it. -/

/-- Python truthiness of an optional string field of the period dict. -/
def otruthy : Option String → Bool
  | none => false
  | some s => s != ""

/-- Helper for `deltaMatch`: after the optional sign, take the digit run and
require exactly one unit character `d`/`m`/`y` before the end of the string. -/
def deltaCore (cs : List Char) (neg : Bool) : Option (String × Char) :=
  let digits := cs.takeWhile Char.isDigit
  let rest := cs.dropWhile Char.isDigit
  match rest with
  | [u] =>
    if u = 'd' ∨ u = 'm' ∨ u = 'y' then
      some ((if neg then "-" else "") ++ String.mk digits, u)
    else none
  | _ => none

/-- `DELTA_REGEX.search(s)` for the anchored pattern
`^(?P<delta_int>-?\d*)(?P<delta_time>d|m|y)$`: on success, the
`(delta_int, delta_time)` groups; `none` models no match.  Without
`re.MULTILINE`, Python's `$` also matches just before a single trailing
newline, so one final `'\n'` is stripped before matching (`'5d\n'` matches,
`'5d\n\n'` does not).  The digit class is modelled as ASCII `0-9`
(`Char.isDigit`); Python's `\d` also accepts non-ASCII Unicode decimal
digits, so theorems about non-matching inputs restrict to ASCII strings. -/
def deltaMatch (s : String) : Option (String × Char) :=
  let cs := if s.toList.getLast? = some (Char.ofNat 10) then s.toList.dropLast else s.toList
  match cs with
  | '-' :: rest => deltaCore rest true
  | cs2 => deltaCore cs2 false

/-- The string contains only ASCII characters (on such strings the model's
digit class coincides with Python's `\d`). -/
def asciiOnly (s : String) : Bool := s.toList.all (fun c => c.toNat < 128)

/-- The period dict handed to `get_period` (all entries read with `.get`). -/
structure Period where
  field : Option String
  start_delta : Option String
  end_delta : Option String
  start_date : Option String
  end_date : Option String

/-- `f'{field}__gte'` renders an absent field exactly as Python would. -/
def fieldName : Option String → String
  | some s => s
  | none => "None"

/-- calc.py lines 290-296: the filter entries contributed by the literal
`start_date` / `end_date` values of the period dict. -/
def periodLiteralFilter (p : Period) : List (String × String) :=
  let fld := fieldName p.field
  let df1 :=
    if otruthy p.start_date then dset ([] : List (String × String)) (fld ++ "__gte") (p.start_date.getD "")
    else ([] : List (String × String))
  if otruthy p.end_date then dset df1 (fld ++ "__lte") (p.end_date.getD "") else df1

/-- calc.py lines 298-302: if `start_delta` is set and matches the delta
grammar, overwrite the `__gte` entry and rebind `start_date`; otherwise leave
both as they are. -/
def periodStartDelta (getDates : String × Char → String → String × String) (tz : String)
    (p : Period) (df : List (String × String)) :
    List (String × String) × Option String :=
  if otruthy p.start_delta then
    match deltaMatch (p.start_delta.getD "") with
    | some mt =>
      (dset df (fieldName p.field ++ "__gte") (getDates mt tz).1, some (getDates mt tz).1)
    | none => (df, p.start_date)
  else (df, p.start_date)

/-- calc.py lines 304-308: the symmetric step for `end_delta` / `__lte`. -/
def periodEndDelta (getDates : String × Char → String → String × String) (tz : String)
    (p : Period) (df : List (String × String)) :
    List (String × String) × Option String :=
  if otruthy p.end_delta then
    match deltaMatch (p.end_delta.getD "") with
    | some mt =>
      (dset df (fieldName p.field ++ "__lte") (getDates mt tz).2, some (getDates mt tz).2)
    | none => (df, p.end_date)
  else (df, p.end_date)

/-- `get_period` (calc.py lines 277-310): returns the filter dict and the
final `start_date` / `end_date` bindings.  Timestamps are opaque strings; the
external delta arithmetic is the `getDates` parameter. -/
def get_period (getDates : String × Char → String → String × String)
    (p? : Option Period) (tz : String) :
    List (String × String) × Option String × Option String :=
  match p? with
  | none => ([], none, none)
  | some p =>
    if !otruthy p.field &&
        !(otruthy p.start_date || otruthy p.end_date ||
          otruthy p.start_delta || otruthy p.end_delta) then
      ([], none, none)
    else
      let stepS := periodStartDelta getDates tz p (periodLiteralFilter p)
      let stepE := periodEndDelta getDates tz p stepS.1
      (stepE.1, stepS.2, stepE.2)

/-! ### Row values and the result reshaper (`normalize_groups`,
calc.py lines 365-426) -/

/-- A scalar cell value as it can appear in a grouped row: SQL NULL surfaces as
Python `None`, otherwise numbers, strings and booleans. -/
inductive Val where
  | vnone
  | vint (i : Int)
  | vstr (s : String)
  | vbool (b : Bool)
deriving DecidableEq

/-- Python truthiness of a cell value (`if x:`). -/
def Val.truthy : Val → Bool
  | .vnone => false
  | .vint i => i != 0
  | .vstr s => s != ""
  | .vbool b => b

/-- Python `str()` of a cell value (`second = str(result[first_group])`). -/
def Val.pyStr : Val → String
  | .vnone => "None"
  | .vint i => toString i
  | .vstr s => s
  | .vbool true => "True"
  | .vbool false => "False"

/-- A grouped row: an insertion-ordered dict from column/alias name to value. -/
abbrev Row := List (String × Val)

/-- The x-axis display dispatch of the output loop (calc.py lines 417-422):
truthy values pass through, `None` becomes `"Null"`, every other falsy value
becomes `"Empty"`. -/
def displayX (x : Val) : Val :=
  if x.truthy then x
  else if x = Val.vnone then Val.vstr "Null"
  else Val.vstr "Empty"

/-- One iteration of the output loop: copy the accumulated series dict and set
its `'x'` entry to the display form of the dimension value. -/
def displayRow (p : Val × Row) : Row :=
  dset p.2 "x" (displayX p.1)

/-- One iteration of the main loop of `normalize_groups` (calc.py lines
392-413) over state `(tmp, keys)`.  `x` is `groups[0]`, `first_group` is
`groups[1]` (used only when `single_group` is false), `calc_key` is `calc[0]`.
Missing row keys (`result[...]`) are `KeyError`, modelled as `none`. -/
def ngStep (x first_group calc_key : String) (additional_fields calcs : List String)
    (single_group : Bool) (st : List (Val × Row) × List String) (result : Row) :
    Option (List (Val × Row) × List String) :=
  match dget result x with
  | none => none
  | some x_key =>
    let tmp := if (dget st.1 x_key).isSome then st.1 else st.1 ++ [(x_key, [])]
    let row0 := (dget tmp x_key).getD []
    match optFoldl (fun row f => (dget result f).map (fun v => dset row f v))
      row0 additional_fields with
    | none => none
    | some row1 =>
      if single_group then
        match optFoldl (fun row formula => (dget result formula).map (fun v => dset row formula v))
          row1 calcs with
        | none => none
        | some row2 => some (dset tmp x_key row2, calcs)
      else
        match dget result first_group with
        | none => none
        | some sv =>
          match (if (dget row1 sv.pyStr).isSome then some row1
                 else (dget result calc_key).map (fun cv => dset row1 sv.pyStr cv)) with
          | none => none
          | some row2 =>
            some (dset tmp x_key row2,
              if sv.pyStr ∈ st.2 then st.2 else st.2 ++ [sv.pyStr])

/-- `normalize_groups` (calc.py lines 365-426).  The unused `timezone`,
`start_date`, `end_date` and `group_by` parameters of the Python signature are
omitted.  An empty `results` makes the source return the bare empty list
instead of a `(values, keys)` pair — its caller `get_results` guards against
that with `if results:`, so it is modelled as `none`; `groups[0]` and
`calc[0]` on empty lists are `IndexError`, also `none`. -/
def normalize_groups (results : List Row) (additional_fields calcs groups : List String) :
    Option (List Row × List String) :=
  if results.isEmpty then none
  else
    match groups.head? with
    | none => none
    | some x =>
      match calcs.head? with
      | none => none
      | some calc_key =>
        match optFoldl
          (ngStep x ((groups.drop 1).headD "") calc_key additional_fields calcs
            (groups.length == 1)) ([], []) results with
        | none => none
        | some st => some (st.1.map displayRow, st.2)

/-- Modelled from the spec: "in first-seen order, the distinct ... identifiers
actually present" — fold that appends each unseen element. -/
def firstSeen {α : Type} [DecidableEq α] : List α → List α → List α
  | seen, [] => seen
  | seen, s :: rest => firstSeen (if s ∈ seen then seen else seen ++ [s]) rest

/-! ### Caller-supplied label map (`get_results`, calc.py lines 487-502) -/

/-- The row-rewrite loop: copy the row, then for every `(key, value)` item of
the original row whose key is in the label map, set the mapped label to that
value on the copy (the original key is not removed). -/
def translateRow (m : List (String × String)) (result : Row) : Row :=
  result.foldl (fun acc p =>
    match dget m p.1 with
    | some label => dset acc label p.2
    | none => acc) result

/-- The whole key-translation step: `new_keys.append(keys[key])` for every
series key (a key absent from the map is a `KeyError`, modelled as `none`),
then the row rewrite above for every result row. -/
def translateStep (m : List (String × String)) (results : List Row) (resultsKeys : List String) :
    Option (List Row × List String) :=
  match optMapM (fun k => dget m k) resultsKeys with
  | none => none
  | some newKeys => some (results.map (translateRow m), newKeys)

/-! ## Helper lemmas: the dict model -/

theorem dget_cons {κ α : Type} [DecidableEq κ] (q : κ × α) (d : List (κ × α)) (k : κ) :
    dget (q :: d) k = if q.1 = k then some q.2 else dget d k := by
  by_cases h : q.1 = k
  · simp [dget, List.find?_cons_of_pos, h]
  · rw [if_neg h]
    unfold dget
    rw [List.find?_cons_of_neg]
    simp [h]

theorem dget_append_right {κ α : Type} [DecidableEq κ] (d e : List (κ × α)) (k : κ)
    (h : dget d k = none) : dget (d ++ e) k = dget e k := by
  have hf : d.find? (fun p => decide (p.1 = k)) = none := by
    cases hf : d.find? (fun p => decide (p.1 = k)) with
    | none => rfl
    | some q => rw [dget, hf] at h; simp at h
  rw [dget, List.find?_append, hf]
  rfl

theorem dget_isSome_iff {κ α : Type} [DecidableEq κ] (d : List (κ × α)) (k : κ) :
    (dget d k).isSome = true ↔ k ∈ d.map Prod.fst := by
  induction d with
  | nil => simp [dget]
  | cons q t ih =>
    rw [dget_cons]
    by_cases h : q.1 = k
    · simp [h]
    · rw [if_neg h]
      simp only [List.map_cons, List.mem_cons, ih]
      constructor
      · exact Or.inr
      · rintro (hk | hk)
        · exact absurd hk.symm h
        · exact hk

theorem map_replace_fst {κ α : Type} [DecidableEq κ] (d : List (κ × α)) (k : κ) (v : α) :
    (d.map (fun p => if p.1 = k then (k, v) else p)).map Prod.fst = d.map Prod.fst := by
  induction d with
  | nil => rfl
  | cons q t ih =>
    simp only [List.map_cons, ih]
    by_cases h : q.1 = k
    · simp [h]
    · simp [h]

theorem dset_map_fst {κ α : Type} [DecidableEq κ] (d : List (κ × α)) (k : κ) (v : α)
    (h : (dget d k).isSome = true) : (dset d k v).map Prod.fst = d.map Prod.fst := by
  rw [dset, if_pos h, map_replace_fst]

theorem dget_dset_self {κ α : Type} [DecidableEq κ] (d : List (κ × α)) (k : κ) (v : α) :
    dget (dset d k v) k = some v := by
  by_cases h : (dget d k).isSome = true
  · rw [dset, if_pos h]
    induction d with
    | nil => simp [dget] at h
    | cons q t ih =>
      by_cases hq : q.1 = k
      · simp only [List.map_cons, if_pos hq]
        rw [dget_cons]
        simp
      · simp only [List.map_cons, if_neg hq]
        rw [dget_cons, if_neg hq]
        rw [dget_cons, if_neg hq] at h
        exact ih h
  · rw [dset, if_neg h]
    have hn : dget d k = none := by
      cases hd : dget d k with
      | none => rfl
      | some w => rw [hd] at h; simp at h
    rw [dget_append_right _ _ _ hn, dget_cons]
    simp

theorem string_append_ne {a b c : String} (h : b ≠ c) : a ++ b ≠ a ++ c := by
  intro he
  apply h
  apply String.ext
  have hd : a.data ++ b.data = a.data ++ c.data := by
    rw [← String.data_append, ← String.data_append, he]
  exact List.append_cancel_left hd

/-! ## Claim C4: the `quarter` bucket key -/

/-- C4, counterexample: the `Quarter` template emits the quarter number and
then the letter `Q` (`"2024 2Q"`), not the claimed exact form `"YYYY Q<n>"`
(`"2024 Q2"`), refuting the claim at the timestamp 2024-05. -/
theorem c4_counterexample :
    quarterKey ⟨2024, 5⟩ ⟨2024, 5⟩ = "2024 2Q" ∧
    specQuarterForm ⟨2024, 5⟩ = "2024 Q2" ∧
    quarterKey ⟨2024, 5⟩ ⟨2024, 5⟩ ≠ specQuarterForm ⟨2024, 5⟩ :=
  ⟨rfl, rfl, by decide⟩

/-- C4, amended: for every timestamp (year arbitrary, month in 1..12) the
quarter bucket key is the year, a space, the quarter number `n`, then the
letter `Q` — i.e. `"YYYY <n>Q"`, with `n` following exactly the claimed
month table (1-3 to 1, 4-6 to 2, 7-9 to 3, 10-12 to 4), and
`ceil(month/3)` agrees with that table on all twelve months. -/
theorem c4_theorem :
    (∀ c s : QDate, 1 ≤ s.month → s.month ≤ 12 →
      quarterKey c s = toString c.year ++ " " ++ toString (specQuarterNum s.month) ++ "Q") ∧
    ceilMonthDiv3 1 = 1 ∧ ceilMonthDiv3 2 = 1 ∧ ceilMonthDiv3 3 = 1 ∧
    ceilMonthDiv3 4 = 2 ∧ ceilMonthDiv3 5 = 2 ∧ ceilMonthDiv3 6 = 2 ∧
    ceilMonthDiv3 7 = 3 ∧ ceilMonthDiv3 8 = 3 ∧ ceilMonthDiv3 9 = 3 ∧
    ceilMonthDiv3 10 = 4 ∧ ceilMonthDiv3 11 = 4 ∧ ceilMonthDiv3 12 = 4 := by
  refine ⟨?_, by decide, by decide, by decide, by decide, by decide, by decide,
    by decide, by decide, by decide, by decide, by decide, by decide⟩
  rintro c ⟨y, m⟩ h1 h2
  simp only at h1 h2
  have hq : ceilMonthDiv3 m = specQuarterNum m := by
    interval_cases m <;> decide
  rw [quarterKey]
  simp only [hq]

/-- C4, witness: the amended statement applied at year 2024, month 11. -/
theorem c4_witness :
    quarterKey ⟨2024, 11⟩ ⟨2024, 11⟩ =
      toString 2024 ++ " " ++ toString (specQuarterNum 11) ++ "Q" :=
  c4_theorem.1 ⟨2024, 11⟩ ⟨2024, 11⟩ (by decide) (by decide)

/-! ## Claim C8: malformed period deltas are silently ignored -/

/-- Setting one key of a dict leaves every other key's absence intact. -/
theorem dget_dset_none {κ α : Type} [DecidableEq κ] (d : List (κ × α)) (k k2 : κ) (v : α)
    (h : dget d k2 = none) (hk : k ≠ k2) : dget (dset d k v) k2 = none := by
  have hf : ∀ q ∈ d, ¬(decide (q.1 = k2) = true) := by
    intro q hq
    have : d.find? (fun p => decide (p.1 = k2)) = none := by
      cases hfind : d.find? (fun p => decide (p.1 = k2)) with
      | none => rfl
      | some w => rw [dget, hfind] at h; simp at h
    exact List.find?_eq_none.mp this q hq
  by_cases hmem : (dget d k).isSome = true
  · rw [dset, if_pos hmem, dget]
    rw [List.find?_eq_none.mpr]
    · rfl
    · intro q hq
      obtain ⟨p, hp, rfl⟩ := List.mem_map.mp hq
      by_cases hpk : p.1 = k
      · simp [hpk, hk]
      · simp only [if_neg hpk]
        exact hf p hp
  · rw [dset, if_neg hmem, dget_append_right _ _ _ h, dget_cons, if_neg hk]
    rfl

theorem periodLiteralFilter_no_gte (p : Period) (h : p.start_date = none) :
    dget (periodLiteralFilter p) (fieldName p.field ++ "__gte") = none := by
  have hot : otruthy p.start_date = false := by rw [h]; rfl
  have hng : fieldName p.field ++ "__lte" ≠ fieldName p.field ++ "__gte" :=
    string_append_ne (by decide)
  rw [periodLiteralFilter]
  simp only [hot, Bool.false_eq_true, if_false]
  by_cases he : otruthy p.end_date = true
  · rw [if_pos he]
    exact dget_dset_none _ _ _ _ rfl hng
  · rw [if_neg he]
    rfl

theorem periodLiteralFilter_no_lte (p : Period) (h : p.end_date = none) :
    dget (periodLiteralFilter p) (fieldName p.field ++ "__lte") = none := by
  have hot : otruthy p.end_date = false := by rw [h]; rfl
  have hng : fieldName p.field ++ "__gte" ≠ fieldName p.field ++ "__lte" :=
    string_append_ne (by decide)
  rw [periodLiteralFilter]
  simp only [hot, Bool.false_eq_true, if_false]
  by_cases hs : otruthy p.start_date = true
  · rw [if_pos hs]
    exact dget_dset_none _ _ _ _ rfl hng
  · rw [if_neg hs]
    rfl

theorem periodStartDelta_nomatch (gd : String × Char → String → String × String) (tz : String)
    (p : Period) (df : List (String × String)) (s : String)
    (hs : p.start_delta = some s) (hm : deltaMatch s = none) :
    periodStartDelta gd tz p df = (df, p.start_date) := by
  rw [periodStartDelta, hs]
  by_cases ht : otruthy (some s) = true
  · rw [if_pos ht]
    simp only [Option.getD_some, hm]
  · rw [if_neg ht]

theorem periodEndDelta_nomatch (gd : String × Char → String → String × String) (tz : String)
    (p : Period) (df : List (String × String)) (s : String)
    (hs : p.end_delta = some s) (hm : deltaMatch s = none) :
    periodEndDelta gd tz p df = (df, p.end_date) := by
  rw [periodEndDelta, hs]
  by_cases ht : otruthy (some s) = true
  · rw [if_pos ht]
    simp only [Option.getD_some, hm]
  · rw [if_neg ht]

theorem periodEndDelta_no_gte (gd : String × Char → String → String × String) (tz : String)
    (p : Period) (df : List (String × String))
    (h : dget df (fieldName p.field ++ "__gte") = none) :
    dget (periodEndDelta gd tz p df).1 (fieldName p.field ++ "__gte") = none := by
  have hng : fieldName p.field ++ "__lte" ≠ fieldName p.field ++ "__gte" :=
    string_append_ne (by decide)
  rw [periodEndDelta]
  by_cases ht : otruthy p.end_delta = true
  · rw [if_pos ht]
    cases hdm : deltaMatch (p.end_delta.getD "") with
    | none => exact h
    | some mt => exact dget_dset_none _ _ _ _ h hng
  · rw [if_neg ht]
    exact h

theorem periodStartDelta_no_lte (gd : String × Char → String → String × String) (tz : String)
    (p : Period) (df : List (String × String))
    (h : dget df (fieldName p.field ++ "__lte") = none) :
    dget (periodStartDelta gd tz p df).1 (fieldName p.field ++ "__lte") = none := by
  have hng : fieldName p.field ++ "__gte" ≠ fieldName p.field ++ "__lte" :=
    string_append_ne (by decide)
  rw [periodStartDelta]
  by_cases ht : otruthy p.start_delta = true
  · rw [if_pos ht]
    cases hdm : deltaMatch (p.start_delta.getD "") with
    | none => exact h
    | some mt => exact dget_dset_none _ _ _ _ h hng
  · rw [if_neg ht]
    exact h

/-- C8, confirmed: `"xx"` does not match the delta grammar (while, for
fidelity with Python's `$`, a single trailing newline is tolerated:
`"5d\n"` does match), and for every ASCII `start_delta` (resp. `end_delta`)
string that fails to match while the corresponding literal date is absent,
`get_period` — a total function, so no error is raised — adds no `__gte`
(resp. `__lte`) range constraint for the period's field and returns that
bound unset, for every external date resolver and timezone.  (The ASCII
restriction keeps the model's digit class `0-9` coextensive with Python's
Unicode-aware `\d`.) -/
theorem c8_theorem :
    deltaMatch "xx" = none ∧
    deltaMatch "5d
" = some ("5", Char.ofNat 100) ∧
    (∀ gd tz p s, asciiOnly s = true →
      p.start_delta = some s → deltaMatch s = none → p.start_date = none →
      dget (get_period gd (some p) tz).1 (fieldName p.field ++ "__gte") = none ∧
      (get_period gd (some p) tz).2.1 = none) ∧
    (∀ gd tz p s, asciiOnly s = true →
      p.end_delta = some s → deltaMatch s = none → p.end_date = none →
      dget (get_period gd (some p) tz).1 (fieldName p.field ++ "__lte") = none ∧
      (get_period gd (some p) tz).2.2 = none) := by
  refine ⟨rfl, rfl, ?_, ?_⟩
  · intro gd tz p s _ hs hm h0
    rw [get_period]
    by_cases hC : (!otruthy p.field &&
        !(otruthy p.start_date || otruthy p.end_date ||
          otruthy p.start_delta || otruthy p.end_delta)) = true
    · rw [if_pos hC]
      exact ⟨rfl, rfl⟩
    · rw [if_neg hC]
      dsimp only
      have hS := periodStartDelta_nomatch gd tz p (periodLiteralFilter p) s hs hm
      constructor
      · apply periodEndDelta_no_gte
        rw [hS]
        exact periodLiteralFilter_no_gte p h0
      · rw [hS, h0]
  · intro gd tz p s _ hs hm h0
    rw [get_period]
    by_cases hC : (!otruthy p.field &&
        !(otruthy p.start_date || otruthy p.end_date ||
          otruthy p.start_delta || otruthy p.end_delta)) = true
    · rw [if_pos hC]
      exact ⟨rfl, rfl⟩
    · rw [if_neg hC]
      dsimp only
      have hE := periodEndDelta_nomatch gd tz p
        (periodStartDelta gd tz p (periodLiteralFilter p)).1 s hs hm
      constructor
      · rw [hE]
        apply periodStartDelta_no_lte
        exact periodLiteralFilter_no_lte p h0
      · rw [hE, h0]

/-- C8, witness: the theorem applied to a concrete period whose two deltas are
both the malformed string `"xx"`. -/
theorem c8_witness :
    dget (get_period (fun _ _ => ("S", "E"))
        (some ⟨some "created", some "xx", some "xx", none, none⟩) "UTC").1
      (fieldName (some "created") ++ "__gte") = none ∧
    (get_period (fun _ _ => ("S", "E"))
        (some ⟨some "created", some "xx", some "xx", none, none⟩) "UTC").2.1 = none :=
  c8_theorem.2.2.1 (fun _ _ => ("S", "E")) "UTC"
    ⟨some "created", some "xx", some "xx", none, none⟩ "xx" (by decide) rfl rfl rfl

/-! ## Helper lemmas: optMapM -/

theorem dget_nil {κ α : Type} [DecidableEq κ] (k : κ) : dget ([] : List (κ × α)) k = none := rfl

theorem optMapM_mem {α β : Type} (f : α → Option β) (l : List α) (l2 : List β)
    (h : optMapM f l = some l2) : ∀ b ∈ l2, ∃ a ∈ l, f a = some b := by
  induction l generalizing l2 with
  | nil =>
    rw [optMapM] at h
    cases h
    simp
  | cons a t ih =>
    rw [optMapM] at h
    cases hfa : f a with
    | none => rw [hfa] at h; cases h
    | some b0 =>
      rw [hfa] at h
      cases hm : optMapM f t with
      | none => rw [hm] at h; cases h
      | some t2 =>
        rw [hm] at h
        dsimp only at h
        cases h
        intro b hb
        rcases List.mem_cons.mp hb with rfl | hmem
        · exact ⟨a, List.mem_cons_self a t, hfa⟩
        · obtain ⟨a2, ha2, hfa2⟩ := ih t2 hm b hmem
          exact ⟨a2, List.mem_cons_of_mem a ha2, hfa2⟩

theorem optMapM_eq_none {α β : Type} (f : α → Option β) (l : List α) (a : α)
    (ha : a ∈ l) (hf : f a = none) : optMapM f l = none := by
  induction l with
  | nil => simp at ha
  | cons x t ih =>
    rw [optMapM]
    rcases List.mem_cons.mp ha with rfl | hmem
    · rw [hf]
    · cases hfx : f x with
      | none => rfl
      | some b => rw [ih hmem]; rfl

/-! ## Claim C5: accepted aggregate function names -/

/-- C5, counterexample: `"stddev"` — a member of the claimed enum — is not a
key of the `CALC` table (whose key is `"std dev"`, with a space), so planning
a `stddev` formula fails with a `KeyError` (modelled `none`) instead of being
accepted. -/
theorem c5_counterexample :
    lookupCALC "stddev" = none ∧
    groupByFormulas (FieldSpec.col "id") ["stddev"] false = none := ⟨rfl, rfl⟩

/-- C5, amended: the names accepted by the planner are exactly
`avg, sum, count, min, max, variance` and `"std dev"` (with a space — not the
claimed `stddev`); for any name outside that set the planner fails with a
`KeyError` on the `CALC` table (modelled `none`) — no `UnknownAggregateError`
exists anywhere in the code. -/
theorem c5_theorem :
    (∀ f : String, (lookupCALC f).isSome = true ↔
      f ∈ ["avg", "sum", "count", "min", "max", "variance", "std dev"]) ∧
    (∀ f d onField, lookupCALC f = none → groupByFormulas onField [f] d = none) ∧
    (groupByFormulas (FieldSpec.col "id") ["std dev"] false).isSome = true := by
  refine ⟨?_, ?_, rfl⟩
  · intro f
    simp only [lookupCALC, CALC, dget_cons, dget_nil]
    split_ifs <;> simp_all [eq_comm]
  · intro f d onField h
    cases hb : buildAggregation (if onField.falsy then FieldSpec.col "id" else onField) with
    | none => simp [groupByFormulas, hb]
    | some arg => simp [groupByFormulas, hb, optMapM, h]

/-- C5, witness: the failing part of the amended claim applied to the unknown
formula name `"median"`. -/
theorem c5_witness :
    lookupCALC "median" = none ∧
    groupByFormulas (FieldSpec.col "id") ["median"] false = none :=
  ⟨rfl, c5_theorem.2.1 "median" false (FieldSpec.col "id") rfl⟩

/-! ## Claim C6: float forcing for `sum` -/

/-- C6, counterexample: on the ungrouped scalar-total path
(`aggregate`) with the single-column field `amount`, the `sum` aggregate is
built WITHOUT a forced floating-point output type, refuting the claim that
both paths force it for every metric field shape. -/
theorem c6_counterexample :
    (aggregatePlan (FieldSpec.col "amount") ["sum"] false).map AggCall.outputFloat =
      some false := rfl

/-- C6, amended: the grouped path (`group_by`) forces the floating-point
output type exactly on `sum` formulas, for every field shape; the ungrouped
path (`aggregate`) forces it exactly when the metric field is an
arithmetic-expression list (and then for every formula, not only `sum`), and
never for a single-column field — in particular not for a single-column
`sum`. -/
theorem c6_theorem :
    (∀ onField calcs d plan, groupByFormulas onField calcs d = some plan →
      ∀ p ∈ plan, (p.2.outputFloat = true ↔ p.1 = "sum")) ∧
    (∀ toks calcs d call, aggregatePlan (FieldSpec.flist toks) calcs d = some call →
      call.outputFloat = true) ∧
    (∀ s calcs d call, aggregatePlan (FieldSpec.col s) calcs d = some call →
      call.outputFloat = false) := by
  refine ⟨?_, ?_, ?_⟩
  · intro onField calcs d plan h p hp
    rw [groupByFormulas] at h
    cases hb : buildAggregation (if onField.falsy then FieldSpec.col "id" else onField) with
    | none => rw [hb] at h; cases h
    | some arg =>
      rw [hb] at h
      dsimp only at h
      obtain ⟨a, _, hfa⟩ := optMapM_mem _ _ _ h p hp
      cases hl : lookupCALC a with
      | none => rw [hl] at hfa; cases hfa
      | some fn =>
        rw [hl] at hfa
        cases hfa
        simp
  · intro toks calcs d call h
    rw [aggregatePlan] at h
    cases hc0 : calcs.head? with
    | none => rw [hc0] at h; cases h
    | some c0 =>
      rw [hc0] at h
      dsimp only at h
      cases hfn : lookupCALC c0 with
      | none => rw [hfn] at h; cases h
      | some fn =>
        rw [hfn] at h
        dsimp only at h
        cases harg : buildAggregation (FieldSpec.flist toks) with
        | none => rw [harg] at h; cases h
        | some arg =>
          rw [harg] at h
          dsimp only at h
          cases h
          rfl
  · intro s calcs d call h
    rw [aggregatePlan] at h
    cases hc0 : calcs.head? with
    | none => rw [hc0] at h; cases h
    | some c0 =>
      rw [hc0] at h
      dsimp only at h
      cases hfn : lookupCALC c0 with
      | none => rw [hfn] at h; cases h
      | some fn =>
        rw [hfn] at h
        dsimp only at h
        cases harg : buildAggregation (FieldSpec.col s) with
        | none => rw [harg] at h; cases h
        | some arg =>
          rw [harg] at h
          dsimp only at h
          by_cases h1 : s = "id"
          · rw [if_pos h1] at h
            cases h
            rfl
          · rw [if_neg h1] at h
            by_cases h2 : s ≠ ""
            · rw [if_pos h2] at h
              cases h
              rfl
            · rw [if_neg h2] at h
              cases h

/-- C6, witness: the three parts of the amended claim applied at concrete
plans (grouped `sum` on a column, ungrouped `count` on an expression list,
ungrouped `sum` on a column). -/
theorem c6_witness :
    ((AggCall.mk AggFn.sum (AggArg.col "id") true false).outputFloat = true ↔
      "sum" = "sum") ∧
    (AggCall.mk AggFn.count (AggArg.expr (PyExpr.field "a")) true false).outputFloat = true ∧
    (AggCall.mk AggFn.sum (AggArg.col "amount") false false).outputFloat = false := by
  refine ⟨?_, ?_, ?_⟩
  · exact c6_theorem.1 (FieldSpec.col "id") ["sum"] false
      [("sum", AggCall.mk AggFn.sum (AggArg.col "id") true false)] rfl
      ("sum", AggCall.mk AggFn.sum (AggArg.col "id") true false) (by simp)
  · exact c6_theorem.2.1 ["a"] ["count"] false
      (AggCall.mk AggFn.count (AggArg.expr (PyExpr.field "a")) true false) rfl
  · exact c6_theorem.2.2 "amount" ["sum"] false
      (AggCall.mk AggFn.sum (AggArg.col "amount") false false) rfl

/-! ## Claim C2: the caller-supplied label map -/

/-- C2, counterexample: with label map `{p: P}` and the series key `q` absent
from the map, the key-translation step of `get_results` fails
(`keys[key]` raises `KeyError`, modelled `none`) — the request does NOT
succeed with `q` preserved, refuting the claim. -/
theorem c2_counterexample :
    dget [("p", "P")] "q" = none ∧
    translateStep [("p", "P")] [[("q", Val.vint 1)]] ["q"] = none := ⟨rfl, rfl⟩

theorem translate_foldl_id (m : List (String × String)) (l : List (String × Val)) (acc : Row)
    (h : ∀ p ∈ l, dget m p.1 = none) :
    l.foldl (fun acc2 p =>
      match dget m p.1 with
      | some label => dset acc2 label p.2
      | none => acc2) acc = acc := by
  induction l generalizing acc with
  | nil => rfl
  | cons q t ih =>
    rw [List.foldl_cons, h q (List.mem_cons_self q t)]
    exact ih acc (fun p hp => h p (List.mem_cons_of_mem q hp))

/-- C2, amended: when every series key occurs in the label map, the step
succeeds and replaces each series key by its mapped label (in order); a series
key absent from the map aborts the whole step with a `KeyError` instead of
passing through.  For output rows, a field name absent from the map is left
untouched (a fully unmapped row is returned verbatim), while a mapped field
name has its mapped label ADDED with the same value — the original field name
is kept as well, as the concrete row shows. -/
theorem c2_theorem :
    (∀ m resultsKeys (results : List Row) newKeys,
      optMapM (fun k => dget m k) resultsKeys = some newKeys →
      translateStep m results resultsKeys = some (results.map (translateRow m), newKeys)) ∧
    (∀ (m : List (String × String)) k resultsKeys (results : List Row),
      k ∈ resultsKeys → dget m k = none → translateStep m results resultsKeys = none) ∧
    (∀ m (r : Row), (∀ p ∈ r, dget m p.1 = none) → translateRow m r = r) ∧
    translateRow [("p", "P")] [("p", Val.vint 5), ("z", Val.vint 6)] =
      [("p", Val.vint 5), ("z", Val.vint 6), ("P", Val.vint 5)] := by
  refine ⟨?_, ?_, ?_, rfl⟩
  · intro m rk results nk h
    rw [translateStep, h]
  · intro m k rk results hk hnone
    rw [translateStep, optMapM_eq_none _ _ k hk hnone]
  · intro m r h
    rw [translateRow]
    exact translate_foldl_id m r r h

/-- C2, witness: the success part of the amended claim applied to the map
`{p: P}` with the single series key `p`. -/
theorem c2_witness :
    translateStep [("p", "P")] [[("p", Val.vint 5)]] ["p"] =
      some ([[("p", Val.vint 5)]].map (translateRow [("p", "P")]), ["P"]) :=
  c2_theorem.1 [("p", "P")] ["p"] [[("p", Val.vint 5)]] ["P"] rfl

/-! ## Helper lemmas: the reshaper -/

theorem ng_singleton (v : Val) (n : Int) :
    normalize_groups [[("g", v), ("c", Val.vint n)]] [] ["c"] ["g"] =
      some ([[("c", Val.vint n), ("x", displayX v)]], ["c"]) := by
  simp [normalize_groups, ngStep, optFoldl, dget, dset, displayRow, List.find?_cons]

/-! ## Claim C9: Empty/Null display keys -/

/-- C9, counterexample: a grouped row whose x-axis value is the integer `0`
(neither the empty string nor `None`) does NOT appear unchanged under the
`x` key: the reshaper emits the display key `"Empty"` instead, refuting the
"every other x-axis value appears unchanged" part of the claim. -/
theorem c9_counterexample :
    normalize_groups [[("g", Val.vint 0), ("c", Val.vint 7)]] [] ["c"] ["g"] =
      some ([[("c", Val.vint 7), ("x", Val.vstr "Empty")]], ["c"]) ∧
    Val.vstr "Empty" ≠ Val.vint 0 := ⟨by decide, by decide⟩

/-- C9, amended: an empty-string x value displays as `"Empty"` and a `None` x
value displays as `"Null"`, as claimed — but only TRUTHY x values pass
through unchanged; any other falsy x value (e.g. `0` or `False`) also
displays as `"Empty"`, because the dispatch is by Python truthiness. -/
theorem c9_theorem :
    (∀ n : Int, normalize_groups [[("g", Val.vstr ""), ("c", Val.vint n)]] [] ["c"] ["g"] =
      some ([[("c", Val.vint n), ("x", Val.vstr "Empty")]], ["c"])) ∧
    (∀ n : Int, normalize_groups [[("g", Val.vnone), ("c", Val.vint n)]] [] ["c"] ["g"] =
      some ([[("c", Val.vint n), ("x", Val.vstr "Null")]], ["c"])) ∧
    (∀ (v : Val) (n : Int), v.truthy = true →
      normalize_groups [[("g", v), ("c", Val.vint n)]] [] ["c"] ["g"] =
        some ([[("c", Val.vint n), ("x", v)]], ["c"])) ∧
    (∀ v : Val, v.truthy = false → v ≠ Val.vnone → displayX v = Val.vstr "Empty") := by
  refine ⟨?_, ?_, ?_, ?_⟩
  · intro n
    rw [ng_singleton]
    rfl
  · intro n
    rw [ng_singleton]
    rfl
  · intro v n hv
    rw [ng_singleton]
    have hd : displayX v = v := by rw [displayX, if_pos hv]
    rw [hd]
  · intro v hv hn
    simp [displayX, hv, hn]

/-- C9, witness: the amended claim applied at the truthy value `"A"` and the
falsy non-None value `False`. -/
theorem c9_witness :
    normalize_groups [[("g", Val.vstr "A"), ("c", Val.vint 1)]] [] ["c"] ["g"] =
      some ([[("c", Val.vint 1), ("x", Val.vstr "A")]], ["c"]) ∧
    displayX (Val.vbool false) = Val.vstr "Empty" :=
  ⟨c9_theorem.2.2.1 (Val.vstr "A") 1 (by decide),
   c9_theorem.2.2.2 (Val.vbool false) (by decide) (by decide)⟩

/-! ## Claim C10: the Empty/Null dispatch is by truthiness -/

/-- C10, confirmed: every falsy x value other than `None` — e.g. the integer
`0` or the boolean `False` — gets the display key `"Empty"`; only `None`
maps to `"Null"`. -/
theorem c10_theorem :
    (∀ (v : Val) (n : Int), v.truthy = false → v ≠ Val.vnone →
      normalize_groups [[("g", v), ("c", Val.vint n)]] [] ["c"] ["g"] =
        some ([[("c", Val.vint n), ("x", Val.vstr "Empty")]], ["c"])) ∧
    displayX (Val.vint 0) = Val.vstr "Empty" ∧
    displayX (Val.vbool false) = Val.vstr "Empty" ∧
    displayX Val.vnone = Val.vstr "Null" := by
  refine ⟨?_, by decide, by decide, by decide⟩
  intro v n hv hn
  rw [ng_singleton]
  have hd : displayX v = Val.vstr "Empty" := by simp [displayX, hv, hn]
  rw [hd]

/-- C10, witness: the theorem applied at the x value `0`. -/
theorem c10_witness :
    normalize_groups [[("g", Val.vint 0), ("c", Val.vint 3)]] [] ["c"] ["g"] =
      some ([[("c", Val.vint 3), ("x", Val.vstr "Empty")]], ["c"]) :=
  c10_theorem.1 (Val.vint 0) 3 (by decide) (by decide)

/-! ## Claim C7: the two-dimension pivot -/

theorem ngStep_multi (x fg ck : String) (af cs : List String)
    (st st2 : List (Val × Row) × List String) (r : Row)
    (h : ngStep x fg ck af cs false st r = some st2) :
    ∃ xv sv, dget r x = some xv ∧ dget r fg = some sv ∧
      st2.2 = (if sv.pyStr ∈ st.2 then st.2 else st.2 ++ [sv.pyStr]) ∧
      st2.1.map Prod.fst =
        (if xv ∈ st.1.map Prod.fst then st.1.map Prod.fst
         else st.1.map Prod.fst ++ [xv]) := by
  rw [ngStep] at h
  split at h
  · cases h
  next xv hx =>
    simp only [Bool.false_eq_true, if_false] at h
    split at h
    · cases h
    next row1 haf =>
      split at h
      · cases h
      next sv hsv =>
        split at h
        · cases h
        next row2 hrow2 =>
          cases h
          refine ⟨xv, sv, hx, hsv, rfl, ?_⟩
          by_cases hmem : (dget st.1 xv).isSome = true
          · rw [if_pos hmem, dset_map_fst _ _ _ hmem,
              if_pos ((dget_isSome_iff st.1 xv).mp hmem)]
          · have hnone : dget st.1 xv = none := Option.not_isSome_iff_eq_none.mp hmem
            rw [if_neg hmem]
            have hget : dget (st.1 ++ [(xv, [])]) xv = some ([] : Row) := by
              rw [dget_append_right _ _ _ hnone, dget_cons]
              simp
            rw [dset_map_fst _ _ _ (by rw [hget]; rfl), List.map_append,
              if_neg (fun hc => hmem ((dget_isSome_iff st.1 xv).mpr hc))]
            rfl

theorem ng_fold_keys (x fg ck : String) (af cs : List String) :
    ∀ (results : List Row) (st st2 : List (Val × Row) × List String),
      optFoldl (ngStep x fg ck af cs false) st results = some st2 →
      ∃ seconds xs,
        optMapM (fun r => (dget r fg).map Val.pyStr) results = some seconds ∧
        optMapM (fun r => dget r x) results = some xs ∧
        st2.2 = firstSeen st.2 seconds ∧
        st2.1.map Prod.fst = firstSeen (st.1.map Prod.fst) xs := by
  intro results
  induction results with
  | nil =>
    intro st st2 h
    rw [optFoldl] at h
    cases h
    exact ⟨[], [], rfl, rfl, rfl, rfl⟩
  | cons r t ih =>
    intro st st2 h
    rw [optFoldl] at h
    cases hstep : ngStep x fg ck af cs false st r with
    | none => rw [hstep] at h; cases h
    | some st1 =>
      rw [hstep] at h
      obtain ⟨xv, sv, hx, hsv, hk, hf⟩ := ngStep_multi x fg ck af cs st st1 r hstep
      obtain ⟨seconds, xs, hs1, hs2, hs3, hs4⟩ := ih st1 st2 h
      refine ⟨sv.pyStr :: seconds, xv :: xs, ?_, ?_, ?_, ?_⟩
      · rw [optMapM, hsv]
        rw [hs1]
        rfl
      · rw [optMapM, hx]
        rw [hs2]
        rfl
      · rw [hs3, hk]
        rfl
      · rw [hs4, hf]
        rfl

theorem optFoldl_congr {σ α : Type} (f g : σ → α → Option σ)
    (hfg : ∀ s a, f s a = g s a) : ∀ (l : List α) (s : σ), optFoldl f s l = optFoldl g s l := by
  intro l
  induction l with
  | nil => intro s; rfl
  | cons a t ih =>
    intro s
    rw [optFoldl, optFoldl, hfg]
    cases g s a with
    | none => rfl
    | some s2 => exact ih s2

theorem ngStep_calcs_irrel (x fg ck : String) (af cs1 cs2 : List String)
    (st : List (Val × Row) × List String) (r : Row) :
    ngStep x fg ck af cs1 false st r = ngStep x fg ck af cs2 false st r := by
  rw [ngStep, ngStep]
  cases dget r x with
  | none => rfl
  | some xv =>
    dsimp only
    simp only [Bool.false_eq_true, if_false]

theorem normalize_groups_two_eq (results : List Row) (af : List String) (c0 : String)
    (cs : List String) (g1 g2 : String) (h : results.isEmpty = false) :
    normalize_groups results af (c0 :: cs) [g1, g2] =
      match optFoldl (ngStep g1 g2 c0 af (c0 :: cs) false) ([], []) results with
      | none => none
      | some st => some (st.1.map displayRow, st.2) := by
  rw [normalize_groups]
  simp only [h, Bool.false_eq_true, if_false]
  rfl

/-- C7, confirmed: (i) the claim's concrete three-row example pivots exactly
as stated (each output row is a Python dict, so entry order inside a row is
immaterial; the embedding returns the row with its insertion order `p, q, x`);
(ii) on a two-dimension grouping the result is unchanged if the formula list
is truncated to its first element — only `calc[0]` is read; (iii) for every
successful two-dimension reshape, `keys` is exactly the list of distinct
stringified second-dimension values in first-seen order, and there is one
output row per distinct first-dimension value, in first-seen order, carrying
that value's display form under `x`. -/
theorem c7_theorem :
    normalize_groups
      [[("gx", Val.vstr "A"), ("gy", Val.vstr "p"), ("sum", Val.vint 5)],
       [("gx", Val.vstr "A"), ("gy", Val.vstr "q"), ("sum", Val.vint 3)],
       [("gx", Val.vstr "B"), ("gy", Val.vstr "p"), ("sum", Val.vint 2)]]
      [] ["sum"] ["gx", "gy"] =
      some ([[("p", Val.vint 5), ("q", Val.vint 3), ("x", Val.vstr "A")],
             [("p", Val.vint 2), ("x", Val.vstr "B")]], ["p", "q"]) ∧
    (∀ (results : List Row) (af : List String) (c0 : String) (cs : List String) (g1 g2 : String),
      normalize_groups results af (c0 :: cs) [g1, g2] =
        normalize_groups results af [c0] [g1, g2]) ∧
    (∀ (results : List Row) (af : List String) (c0 : String) (cs : List String)
        (g1 g2 : String) (out : List Row) (ks : List String),
      normalize_groups results af (c0 :: cs) [g1, g2] = some (out, ks) →
      ∃ seconds xs,
        optMapM (fun r => (dget r g2).map Val.pyStr) results = some seconds ∧
        optMapM (fun r => dget r g1) results = some xs ∧
        ks = firstSeen [] seconds ∧
        out.map (fun r => dget r "x") =
          (firstSeen [] xs).map (fun xv => some (displayX xv))) := by
  refine ⟨by decide, ?_, ?_⟩
  · intro results af c0 cs g1 g2
    cases hre : results.isEmpty with
    | true =>
      rw [normalize_groups, normalize_groups]
      simp only [hre, if_true]
    | false =>
      rw [normalize_groups_two_eq results af c0 cs g1 g2 hre,
        normalize_groups_two_eq results af c0 [] g1 g2 hre,
        optFoldl_congr _ _ (ngStep_calcs_irrel g1 g2 c0 af (c0 :: cs) [c0]) results ([], [])]
  · intro results af c0 cs g1 g2 out ks h
    cases hre : results.isEmpty with
    | true =>
      rw [normalize_groups] at h
      simp only [hre, if_true] at h
      cases h
    | false =>
      rw [normalize_groups_two_eq results af c0 cs g1 g2 hre] at h
      cases hfold : optFoldl (ngStep g1 g2 c0 af (c0 :: cs) false) ([], []) results with
      | none => rw [hfold] at h; cases h
      | some st =>
        rw [hfold] at h
        cases h
        obtain ⟨seconds, xs, hs1, hs2, hs3, hs4⟩ :=
          ng_fold_keys g1 g2 c0 af (c0 :: cs) results ([], []) st hfold
        refine ⟨seconds, xs, hs1, hs2, hs3, ?_⟩
        have hx : ∀ p : Val × Row, dget (displayRow p) "x" = some (displayX p.1) := by
          intro p
          rw [displayRow, dget_dset_self]
        rw [List.map_map]
        have hcomp : ((fun r => dget r "x") ∘ displayRow) =
            fun p : Val × Row => some (displayX p.1) := by
          funext p
          exact hx p
        rw [hcomp]
        have h2 : (fun p : Val × Row => some (displayX p.1)) =
            (fun xv => some (displayX xv)) ∘ Prod.fst := rfl
        rw [h2, ← List.map_map, hs4]
        rfl

/-- C7, witness: part (iii) of the theorem applied at the claim's concrete
example. -/
theorem c7_witness :
    ∃ seconds xs,
      optMapM (fun r => (dget r "gy").map Val.pyStr)
        [[("gx", Val.vstr "A"), ("gy", Val.vstr "p"), ("sum", Val.vint 5)],
         [("gx", Val.vstr "A"), ("gy", Val.vstr "q"), ("sum", Val.vint 3)],
         [("gx", Val.vstr "B"), ("gy", Val.vstr "p"), ("sum", Val.vint 2)]] = some seconds ∧
      optMapM (fun r => dget r "gx")
        [[("gx", Val.vstr "A"), ("gy", Val.vstr "p"), ("sum", Val.vint 5)],
         [("gx", Val.vstr "A"), ("gy", Val.vstr "q"), ("sum", Val.vint 3)],
         [("gx", Val.vstr "B"), ("gy", Val.vstr "p"), ("sum", Val.vint 2)]] = some xs ∧
      ["p", "q"] = firstSeen [] seconds ∧
      [[("p", Val.vint 5), ("q", Val.vint 3), ("x", Val.vstr "A")],
       [("p", Val.vint 2), ("x", Val.vstr "B")]].map (fun r => dget r "x") =
        (firstSeen [] xs).map (fun xv => some (displayX xv)) :=
  c7_theorem.2.2
    [[("gx", Val.vstr "A"), ("gy", Val.vstr "p"), ("sum", Val.vint 5)],
     [("gx", Val.vstr "A"), ("gy", Val.vstr "q"), ("sum", Val.vint 3)],
     [("gx", Val.vstr "B"), ("gy", Val.vstr "p"), ("sum", Val.vint 2)]]
    [] "sum" [] "gx" "gy"
    [[("p", Val.vint 5), ("q", Val.vint 3), ("x", Val.vstr "A")],
     [("p", Val.vint 2), ("x", Val.vstr "B")]] ["p", "q"] (by decide)

/-! ## Helper lemmas: the re-lexer and the expression parser -/

theorem getLast?_cons_ne {α : Type} (x : α) (l : List α) (h : l ≠ []) :
    (x :: l).getLast? = l.getLast? := by
  cases l with
  | nil => exact absurd rfl h
  | cons y ys => rw [List.getLast?_cons_cons]

theorem relex_ne_nil : ∀ (l : List String), l ≠ [] → relex l ≠ [] := by
  intro l hl
  cases l with
  | nil => exact absurd rfl hl
  | cons a rest =>
    cases rest with
    | nil => rw [relex]; exact List.cons_ne_nil _ _
    | cons b rest2 =>
      rw [relex]
      by_cases h1 : a = "*" ∧ b = "*"
      · rw [if_pos h1]; exact List.cons_ne_nil _ _
      · rw [if_neg h1]
        by_cases h2 : a = "/" ∧ b = "/"
        · rw [if_pos h2]; exact List.cons_ne_nil _ _
        · rw [if_neg h2]; exact List.cons_ne_nil _ _

theorem relex_eq_map : ∀ (l : List String), (∀ t ∈ l, t ≠ "*" ∧ t ≠ "/") →
    relex l = l.map classify := by
  intro l
  induction l with
  | nil => intro _; rfl
  | cons a rest ih =>
    intro h
    cases rest with
    | nil => rfl
    | cons b rest2 =>
      rw [relex, if_neg, if_neg]
      · rw [List.map_cons, ih (fun t ht => h t (List.mem_cons_of_mem a ht))]
      · intro hc
        exact (h a (List.mem_cons_self a (b :: rest2))).2 hc.1
      · intro hc
        exact (h a (List.mem_cons_self a (b :: rest2))).1 hc.1

theorem classify_ne_pow (t : String) : classify t ≠ Tok.op "**" := by
  by_cases h : isOp t = true
  · rw [classify, if_pos h]
    intro he
    injection he with he2
    subst he2
    exact absurd h (by decide)
  · rw [classify, if_neg h]
    intro he
    cases he

theorem map_classify_head_ne_pow (l : List String) :
    (l.map classify).head? ≠ some (Tok.op "**") := by
  cases l with
  | nil => intro h; cases h
  | cons t l2 =>
    intro h
    rw [List.map_cons, List.head?_cons] at h
    exact classify_ne_pow t (Option.some.inj h)

theorem relex_head_hard : ∀ (b : String) (rest : List String),
    b = "*" ∨ b = "/" ∨ b = "^" →
    ∃ o tl, relex (b :: rest) = Tok.op o :: tl ∧ isHard (Tok.op o) = true := by
  intro b rest hb
  cases rest with
  | nil =>
    refine ⟨b, [], ?_, ?_⟩
    · rw [relex, classify, if_pos (by rcases hb with rfl | rfl | rfl <;> decide)]
    · rcases hb with rfl | rfl | rfl <;> decide
  | cons c rest2 =>
    by_cases h1 : b = "*" ∧ c = "*"
    · exact ⟨"**", relex rest2, by rw [relex, if_pos h1], by decide⟩
    · by_cases h2 : b = "/" ∧ c = "/"
      · exact ⟨"//", relex rest2, by rw [relex, if_neg h1, if_pos h2], by decide⟩
      · refine ⟨b, relex (c :: rest2), ?_, ?_⟩
        · rw [relex, if_neg h1, if_neg h2, classify,
            if_pos (by rcases hb with rfl | rfl | rfl <;> decide)]
        · rcases hb with rfl | rfl | rfl <;> decide

theorem relex_ends_op : ∀ (n : Nat) (l : List String), l.length ≤ n →
    ∀ t, l.getLast? = some t → isOp t = true →
    ∃ o, (relex l).getLast? = some (Tok.op o) := by
  intro n
  induction n with
  | zero =>
    intro l hn t hgl _
    cases l with
    | nil => cases hgl
    | cons a rest => simp at hn
  | succ n ih =>
    intro l hn t hgl hop
    cases l with
    | nil => cases hgl
    | cons a rest =>
      cases rest with
      | nil =>
        rw [List.getLast?_singleton] at hgl
        injection hgl with ht
        subst ht
        refine ⟨a, ?_⟩
        rw [relex, classify, if_pos hop]
        exact List.getLast?_singleton _
      | cons b rest2 =>
        by_cases h1 : a = "*" ∧ b = "*"
        · cases rest2 with
          | nil =>
            refine ⟨"**", ?_⟩
            rw [relex, if_pos h1]
            exact List.getLast?_singleton _
          | cons c rest3 =>
            rw [getLast?_cons_ne a _ (by simp), getLast?_cons_ne b _ (by simp)] at hgl
            obtain ⟨o, ho⟩ := ih (c :: rest3)
              (by simp only [List.length_cons] at hn ⊢; omega) t hgl hop
            refine ⟨o, ?_⟩
            rw [relex, if_pos h1,
              getLast?_cons_ne _ _ (relex_ne_nil _ (by simp))]
            exact ho
        · by_cases h2 : a = "/" ∧ b = "/"
          · cases rest2 with
            | nil =>
              refine ⟨"//", ?_⟩
              rw [relex, if_neg h1, if_pos h2]
              exact List.getLast?_singleton _
            | cons c rest3 =>
              rw [getLast?_cons_ne a _ (by simp), getLast?_cons_ne b _ (by simp)] at hgl
              obtain ⟨o, ho⟩ := ih (c :: rest3)
                (by simp only [List.length_cons] at hn ⊢; omega) t hgl hop
              refine ⟨o, ?_⟩
              rw [relex, if_neg h1, if_pos h2,
                getLast?_cons_ne _ _ (relex_ne_nil _ (by simp))]
              exact ho
          · rw [getLast?_cons_ne a _ (by simp)] at hgl
            obtain ⟨o, ho⟩ := ih (b :: rest2)
              (by simp only [List.length_cons] at hn ⊢; omega) t hgl hop
            refine ⟨o, ?_⟩
            rw [relex, if_neg h1, if_neg h2,
              getLast?_cons_ne _ _ (relex_ne_nil _ (by simp))]
            exact ho

theorem parseUexpF_col (fuel : Nat) (t : String) (r : List Tok)
    (h : r.head? ≠ some (Tok.op "**")) :
    parseUexpF (fuel + 1) (Tok.col t :: r) = some (PyExpr.field t, r) := by
  cases r with
  | nil => rfl
  | cons b r2 =>
    cases b with
    | col s => rfl
    | op o2 =>
      have ho2 : ¬(o2 = "**") := by
        intro he
        subst he
        exact h rfl
      rw [parseUexpF]
      rw [if_neg ho2]

theorem parseUexpF_split : ∀ (fuel : Nat) (l : List Tok) (e : PyExpr) (r : List Tok),
    parseUexpF fuel l = some (e, r) → ∃ pre c, l = pre ++ Tok.col c :: r := by
  intro fuel
  induction fuel with
  | zero =>
    intro l e r h
    cases l with
    | nil => rw [parseUexpF] at h; cases h
    | cons a rest => rw [parseUexpF] at h; cases h
  | succ f ih =>
    intro l e r h
    cases l with
    | nil => rw [parseUexpF] at h; cases h
    | cons a rest =>
      cases a with
      | op o =>
        rw [parseUexpF] at h
        by_cases h1 : o = "-"
        · rw [if_pos h1] at h
          cases hp : parseUexpF f rest with
          | none => rw [hp] at h; cases h
          | some p =>
            rw [hp] at h
            cases h
            obtain ⟨pre, c, hl⟩ := ih rest p.1 p.2 (by rw [hp])
            exact ⟨Tok.op o :: pre, c, by rw [hl]; rfl⟩
        · rw [if_neg h1] at h
          by_cases h2 : o = "+"
          · rw [if_pos h2] at h
            cases hp : parseUexpF f rest with
            | none => rw [hp] at h; cases h
            | some p =>
              rw [hp] at h
              cases h
              obtain ⟨pre, c, hl⟩ := ih rest p.1 p.2 (by rw [hp])
              exact ⟨Tok.op o :: pre, c, by rw [hl]; rfl⟩
          · rw [if_neg h2] at h
            cases h
      | col t =>
        cases rest with
        | nil =>
          rw [parseUexpF] at h
          · cases h
            exact ⟨[], t, rfl⟩
          · intro o2 rest2 hq
            cases hq
        | cons b rest2 =>
          cases b with
          | col s =>
            rw [parseUexpF] at h
            · cases h
              exact ⟨[], t, rfl⟩
            · intro o2 rest2 hq
              cases hq
          | op o2 =>
            rw [parseUexpF] at h
            by_cases h2 : o2 = "**"
            · rw [if_pos h2] at h
              cases hp : parseUexpF f rest2 with
              | none => rw [hp] at h; cases h
              | some p =>
                rw [hp] at h
                cases h
                obtain ⟨pre, c, hl⟩ := ih rest2 p.1 p.2 (by rw [hp])
                exact ⟨Tok.col t :: Tok.op o2 :: pre, c, by rw [hl]; rfl⟩
            · rw [if_neg h2] at h
              cases h
              exact ⟨[], t, rfl⟩

theorem parseUexpF_head_soft :
    ∀ (fuel : Nat) (a : Tok) (rest : List Tok) (p : PyExpr × List Tok),
    parseUexpF fuel (a :: rest) = some p → isHard a = false := by
  intro fuel a rest p h
  cases fuel with
  | zero => rw [parseUexpF] at h; cases h
  | succ f =>
    cases a with
    | col t => rfl
    | op o =>
      rw [parseUexpF] at h
      by_cases h1 : o = "-"
      · subst h1; rfl
      · rw [if_neg h1] at h
        by_cases h2 : o = "+"
        · subst h2; rfl
        · rw [if_neg h2] at h; cases h

theorem parseUexpF_badAdj : ∀ (fuel : Nat) (l : List Tok) (e : PyExpr) (r : List Tok),
    parseUexpF fuel l = some (e, r) → hasBadAdj l = hasBadAdj r := by
  intro fuel
  induction fuel with
  | zero =>
    intro l e r h
    cases l with
    | nil => rw [parseUexpF] at h; cases h
    | cons a rest => rw [parseUexpF] at h; cases h
  | succ f ih =>
    intro l e r h
    cases l with
    | nil => rw [parseUexpF] at h; cases h
    | cons a rest =>
      cases a with
      | op o =>
        rw [parseUexpF] at h
        by_cases h1 : o = "-"
        · rw [if_pos h1] at h
          cases hp : parseUexpF f rest with
          | none => rw [hp] at h; cases h
          | some p =>
            rw [hp] at h
            cases h
            cases rest with
            | nil => rw [parseUexpF] at hp; cases hp
            | cons b rest2 =>
              rw [hasBadAdj, parseUexpF_head_soft f b rest2 p hp]
              simp only [Bool.false_or]
              exact ih (b :: rest2) p.1 p.2 (by rw [hp])
        · rw [if_neg h1] at h
          by_cases h2 : o = "+"
          · rw [if_pos h2] at h
            cases hp : parseUexpF f rest with
            | none => rw [hp] at h; cases h
            | some p =>
              rw [hp] at h
              cases h
              cases rest with
              | nil => rw [parseUexpF] at hp; cases hp
              | cons b rest2 =>
                rw [hasBadAdj, parseUexpF_head_soft f b rest2 p hp]
                simp only [Bool.false_or]
                exact ih (b :: rest2) p.1 p.2 (by rw [hp])
          · rw [if_neg h2] at h
            cases h
      | col t =>
        cases rest with
        | nil =>
          rw [parseUexpF] at h
          · cases h
            rfl
          · intro o2 rest2 hq
            cases hq
        | cons b rest2 =>
          cases b with
          | col s =>
            rw [parseUexpF] at h
            · cases h
              rw [hasBadAdj]
            · intro o2 rest2 hq
              cases hq
          | op o2 =>
            rw [parseUexpF] at h
            by_cases h2 : o2 = "**"
            · rw [if_pos h2] at h
              cases hp : parseUexpF f rest2 with
              | none => rw [hp] at h; cases h
              | some p =>
                rw [hp] at h
                cases h
                cases rest2 with
                | nil => rw [parseUexpF] at hp; cases hp
                | cons b2 rest3 =>
                  rw [hasBadAdj, hasBadAdj, parseUexpF_head_soft f b2 rest3 p hp]
                  simp only [Bool.false_or]
                  exact ih (b2 :: rest3) p.1 p.2 (by rw [hp])
            · rw [if_neg h2] at h
              cases h
              rw [hasBadAdj]

theorem parseTailF_split : ∀ (fuel : Nat) (l : List Tok) (ps : List (String × PyExpr)),
    parseTailF fuel l = some ps →
    l = [] ∨ ∃ pre c, l = pre ++ [Tok.col c] := by
  intro fuel
  induction fuel with
  | zero =>
    intro l ps h
    cases l with
    | nil => exact Or.inl rfl
    | cons a rest => rw [parseTailF] at h; cases h
  | succ f ih =>
    intro l ps h
    cases l with
    | nil => exact Or.inl rfl
    | cons a rest =>
      cases a with
      | col t => rw [parseTailF] at h; cases h
      | op o =>
        rw [parseTailF] at h
        cases hp : parseUexpF f rest with
        | none => rw [hp] at h; cases h
        | some p =>
          obtain ⟨e, r⟩ := p
          rw [hp] at h
          dsimp only at h
          cases hq : parseTailF f r with
          | none => rw [hq] at h; cases h
          | some ps2 =>
            obtain ⟨pre, c, hrest⟩ := parseUexpF_split f rest e r hp
            rcases ih r ps2 hq with hrnil | ⟨pre2, c2, hr⟩
            · subst hrnil
              refine Or.inr ⟨Tok.op o :: pre, c, ?_⟩
              rw [hrest]
              rfl
            · refine Or.inr ⟨Tok.op o :: pre ++ Tok.col c :: pre2, c2, ?_⟩
              rw [hrest, hr]
              simp

theorem parseTailF_badAdj : ∀ (fuel : Nat) (l : List Tok) (ps : List (String × PyExpr)),
    parseTailF fuel l = some ps → hasBadAdj l = false := by
  intro fuel
  induction fuel with
  | zero =>
    intro l ps h
    cases l with
    | nil => rfl
    | cons a rest => rw [parseTailF] at h; cases h
  | succ f ih =>
    intro l ps h
    cases l with
    | nil => rfl
    | cons a rest =>
      cases a with
      | col t => rw [parseTailF] at h; cases h
      | op o =>
        rw [parseTailF] at h
        cases hp : parseUexpF f rest with
        | none => rw [hp] at h; cases h
        | some p =>
          obtain ⟨e, r⟩ := p
          rw [hp] at h
          dsimp only at h
          cases hq : parseTailF f r with
          | none => rw [hq] at h; cases h
          | some ps2 =>
            cases rest with
            | nil => rw [parseUexpF] at hp; cases hp
            | cons b rest2 =>
              rw [hasBadAdj, parseUexpF_head_soft f b rest2 (e, r) hp]
              simp only [Bool.false_or]
              rw [parseUexpF_badAdj f (b :: rest2) e r hp]
              exact ih r ps2 hq

theorem hasBadAdj_cons (x : Tok) (l : List Tok) (h : hasBadAdj l = true) :
    hasBadAdj (x :: l) = true := by
  cases l with
  | nil => exact absurd h (by decide)
  | cons b rest =>
    cases x with
    | op o => rw [hasBadAdj, h, Bool.or_true]
    | col s => rw [hasBadAdj]; exact h

theorem hasBadPair_relex : ∀ (n : Nat) (l : List String), l.length ≤ n →
    hasBadPair l = true → hasBadAdj (relex l) = true := by
  intro n
  induction n with
  | zero =>
    intro l hn h
    cases l with
    | nil => exact absurd h (by decide)
    | cons a rest => simp at hn
  | succ n ih =>
    intro l hn h
    cases l with
    | nil => exact absurd h (by decide)
    | cons a rest =>
      cases rest with
      | nil => simp [hasBadPair] at h
      | cons b rest2 =>
        rw [hasBadPair] at h
        simp only [Bool.or_eq_true] at h
        rcases h with hflag | hrest
        · simp only [Bool.and_eq_true, Bool.not_eq_true'] at hflag
          obtain ⟨⟨⟨ha, hb⟩, hc⟩, hd⟩ := hflag
          have hb' : b = "*" ∨ b = "/" ∨ b = "^" := by
            simpa [Bool.or_eq_true, beq_iff_eq, or_assoc] using hb
          have hA : ¬(a = "*" ∧ b = "*") := by
            intro hx
            rw [hx.1, hx.2] at hc
            simp at hc
          have hB : ¬(a = "/" ∧ b = "/") := by
            intro hx
            rw [hx.1, hx.2] at hd
            simp at hd
          obtain ⟨o, tl, hrel, hhard⟩ := relex_head_hard b rest2 hb'
          rw [relex, if_neg hA, if_neg hB, hrel, classify, if_pos ha, hasBadAdj, hhard,
            Bool.true_or]
        · by_cases hM1 : a = "*" ∧ b = "*"
          · rw [relex, if_pos hM1]
            cases rest2 with
            | nil => simp [hasBadPair] at hrest
            | cons h3 rest3 =>
              rw [hasBadPair] at hrest
              simp only [Bool.or_eq_true] at hrest
              rcases hrest with hflag2 | hrest2
              · simp only [Bool.and_eq_true, Bool.not_eq_true'] at hflag2
                obtain ⟨⟨⟨_, hb3⟩, _⟩, _⟩ := hflag2
                have hb3' : h3 = "*" ∨ h3 = "/" ∨ h3 = "^" := by
                  simpa [Bool.or_eq_true, beq_iff_eq, or_assoc] using hb3
                obtain ⟨o, tl, hrel, hhard⟩ := relex_head_hard h3 rest3 hb3'
                rw [hrel, hasBadAdj, hhard, Bool.true_or]
              · have hih := ih (h3 :: rest3)
                  (by simp only [List.length_cons] at hn ⊢; omega) hrest2
                exact hasBadAdj_cons _ _ hih
          · by_cases hM2 : a = "/" ∧ b = "/"
            · rw [relex, if_neg hM1, if_pos hM2]
              cases rest2 with
              | nil => simp [hasBadPair] at hrest
              | cons h3 rest3 =>
                rw [hasBadPair] at hrest
                simp only [Bool.or_eq_true] at hrest
                rcases hrest with hflag2 | hrest2
                · simp only [Bool.and_eq_true, Bool.not_eq_true'] at hflag2
                  obtain ⟨⟨⟨_, hb3⟩, _⟩, _⟩ := hflag2
                  have hb3' : h3 = "*" ∨ h3 = "/" ∨ h3 = "^" := by
                    simpa [Bool.or_eq_true, beq_iff_eq, or_assoc] using hb3
                  obtain ⟨o, tl, hrel, hhard⟩ := relex_head_hard h3 rest3 hb3'
                  rw [hrel, hasBadAdj, hhard, Bool.true_or]
                · have hih := ih (h3 :: rest3)
                    (by simp only [List.length_cons] at hn ⊢; omega) hrest2
                  exact hasBadAdj_cons _ _ hih
            · rw [relex, if_neg hM1, if_neg hM2]
              have hih := ih (b :: rest2)
                (by simp only [List.length_cons] at hn ⊢; omega) hrest
              exact hasBadAdj_cons _ _ hih

theorem endsWithOp_concat (l : List String) (a : String) :
    endsWithOp (l ++ [a]) = isOp a := by
  rw [endsWithOp, List.getLast?_concat]

theorem reduceLvl_skip (lvl : List String) : ∀ (ps : List (String × PyExpr)) (hd : PyExpr),
    (∀ p ∈ ps, p.1 ∉ lvl) → reduceLvl lvl hd ps = (hd, ps) := by
  intro ps
  induction ps with
  | nil => intro hd _; rfl
  | cons q rest ih =>
    intro hd h
    obtain ⟨op, e⟩ := q
    rw [reduceLvl, if_neg (h (op, e) (List.mem_cons_self (op, e) rest)),
      ih e (fun p hp => h p (List.mem_cons_of_mem (op, e) hp))]

theorem reduceLvl_all (lvl : List String) : ∀ (ps : List (String × PyExpr)) (hd : PyExpr),
    (∀ p ∈ ps, p.1 ∈ lvl) →
    reduceLvl lvl hd ps = (ps.foldl (fun h p => PyExpr.bin p.1 h p.2) hd, []) := by
  intro ps
  induction ps with
  | nil => intro hd _; rfl
  | cons q rest ih =>
    intro hd h
    obtain ⟨op, e⟩ := q
    rw [reduceLvl, if_pos (h (op, e) (List.mem_cons_self (op, e) rest)),
      ih (PyExpr.bin op hd e) (fun p hp => h p (List.mem_cons_of_mem (op, e) hp)),
      List.foldl_cons]

theorem buildPrec_pm (hd : PyExpr) (ps : List (String × PyExpr))
    (h : ∀ p ∈ ps, p.1 = "+" ∨ p.1 = "-") :
    buildPrec hd ps = ps.foldl (fun h p => PyExpr.bin p.1 h p.2) hd := by
  have h1 : reduceLvl ["*", "/", "//"] hd ps = (hd, ps) :=
    reduceLvl_skip _ ps hd (by intro p hp; rcases h p hp with h1 | h1 <;> simp [h1])
  have h2 : reduceLvl ["+", "-"] hd ps =
      (ps.foldl (fun h p => PyExpr.bin p.1 h p.2) hd, []) :=
    reduceLvl_all _ ps hd (by intro p hp; rcases h p hp with h1 | h1 <;> simp [h1])
  simp only [buildPrec]
  rw [h1]
  dsimp only
  rw [h2]
  rfl

theorem specGo_parse (dv xw : Int → Int → Int) (v : String → Int) :
    ∀ (n : Nat) (rest : List String), rest.length ≤ n →
      ∀ (acc r : Int) (e : PyExpr) (fuel : Nat), rest.length ≤ fuel →
      (∀ t ∈ rest, isOp t = true → t = "+" ∨ t = "-") →
      PyExpr.eval dv xw v e = acc →
      specGo dv xw v acc rest = some r →
      ∃ ps, parseTailF fuel (rest.map classify) = some ps ∧
        (∀ p ∈ ps, p.1 = "+" ∨ p.1 = "-") ∧
        PyExpr.eval dv xw v (ps.foldl (fun h p => PyExpr.bin p.1 h p.2) e) = r := by
  intro n
  induction n with
  | zero =>
    intro rest hn acc r e fuel hf hpm he hs
    cases rest with
    | nil =>
      rw [specGo] at hs
      cases hs
      exact ⟨[], by cases fuel <;> rfl, by simp, he⟩
    | cons a t => simp at hn
  | succ n ih =>
    intro rest hn acc r e fuel hf hpm he hs
    cases rest with
    | nil =>
      rw [specGo] at hs
      cases hs
      exact ⟨[], by cases fuel <;> rfl, by simp, he⟩
    | cons o rest1 =>
      cases rest1 with
      | nil => rw [specGo] at hs; cases hs
      | cons c rest2 =>
        rw [specGo] at hs
        by_cases hoc : (isOp o && !isOp c) = true
        · rw [if_pos hoc] at hs
          simp only [Bool.and_eq_true, Bool.not_eq_true'] at hoc
          have ho : isOp o = true := hoc.1
          have hcn : isOp c = false := hoc.2
          cases fuel with
          | zero => simp only [List.length_cons] at hf; omega
          | succ f =>
            cases f with
            | zero => simp only [List.length_cons] at hf; omega
            | succ f2 =>
              have hpm2 : ∀ t ∈ rest2, isOp t = true → t = "+" ∨ t = "-" := by
                intro t ht
                exact hpm t (by simp [ht])
              have hlen : rest2.length ≤ n := by
                simp only [List.length_cons] at hn
                omega
              have hlenf : rest2.length ≤ f2 + 1 := by
                simp only [List.length_cons] at hf
                omega
              obtain ⟨ps, hps, hpspm, hev⟩ := ih rest2 hlen (apBin dv xw o acc (v c)) r
                (PyExpr.bin o e (PyExpr.field c)) (f2 + 1) hlenf hpm2
                (by simp only [PyExpr.eval]; rw [he]) hs
              refine ⟨(o, PyExpr.field c) :: ps, ?_, ?_, ?_⟩
              · have hmo : classify o = Tok.op o := by rw [classify, if_pos ho]
                have hmc : classify c = Tok.col c := by simp [classify, hcn]
                simp only [List.map_cons]
                rw [hmo, hmc, parseTailF,
                  parseUexpF_col f2 c (rest2.map classify) (map_classify_head_ne_pow rest2)]
                dsimp only
                rw [hps]
                rfl
              · intro p hp
                rcases List.mem_cons.mp hp with rfl | hmem
                · exact hpm o (by simp) ho
                · exact hpspm p hmem
              · rw [List.foldl_cons]
                exact hev
        · rw [if_neg hoc] at hs
          cases hs

/-! ## Claim C1: left-to-right evaluation vs CPython precedence -/

/-- C1, counterexample: for the field spec `[a, "+", b, "*", c]` with
`a=2, b=3, c=4` the built expression evaluates (with CPython precedence) to
`2 + 3*4 = 14`, while the claimed strict left-to-right reading gives
`(2+3)*4 = 20` — the left-to-right rule does NOT hold for every mixture of
the five operators. -/
theorem c1_counterexample :
    pyEval (fun a _ => a) (fun a _ => a)
      (fun s => if s = "a" then 2 else if s = "b" then 3 else 4)
      ["a", "+", "b", "*", "c"] = some 14 ∧
    specLTR (fun a _ => a) (fun a _ => a)
      (fun s => if s = "a" then 2 else if s = "b" then 3 else 4)
      ["a", "+", "b", "*", "c"] = some 20 ∧
    (14 : Int) ≠ 20 := ⟨by decide, by decide, by decide⟩

/-- C1, amended: the builder evaluates the token sequence as a CPython
expression, i.e. with CPython operator precedence (`*`, `/` before `+`, `-`
before `^`), NOT strictly left-to-right in general; for sequences whose
operators are only `+` and `-` (one single precedence level, left
associative) the evaluation does coincide with the strict left-to-right
reading — in particular the claim's two examples hold: `[a,+,b]` with
`a=3, b=4` yields `7` and `[a,-,b,+,c]` with `a=10, b=3, c=1` yields `8`. -/
theorem c1_theorem :
    (∀ (dv xw : Int → Int → Int) (v : String → Int) (toks : List String) (r : Int),
      (∀ t ∈ toks, isOp t = true → t = "+" ∨ t = "-") →
      specLTR dv xw v toks = some r →
      pyEval dv xw v toks = some r) ∧
    pyEval (fun a _ => a) (fun a _ => a)
      (fun s => if s = "a" then 3 else 4) ["a", "+", "b"] = some 7 ∧
    pyEval (fun a _ => a) (fun a _ => a)
      (fun s => if s = "a" then 10 else if s = "b" then 3 else 1)
      ["a", "-", "b", "+", "c"] = some 8 := by
  refine ⟨?_, by decide, by decide⟩
  intro dv xw v toks r hpm hs
  cases toks with
  | nil => rw [specLTR] at hs; cases hs
  | cons c rest =>
    rw [specLTR] at hs
    by_cases hc : isOp c = true
    · rw [if_pos hc] at hs; cases hs
    · rw [if_neg hc] at hs
      have hcn : isOp c = false := by
        cases hic : isOp c
        · rfl
        · exact absurd hic hc
      have hns : ∀ t ∈ c :: rest, t ≠ "*" ∧ t ≠ "/" := by
        intro t ht
        constructor
        · intro he
          subst he
          rcases hpm "*" ht (by decide) with h' | h' <;> exact absurd h' (by decide)
        · intro he
          subst he
          rcases hpm "/" ht (by decide) with h' | h' <;> exact absurd h' (by decide)
      have hclass : classify c = Tok.col c := by simp [classify, hcn]
      have hrel : relex (c :: rest) = Tok.col c :: rest.map classify := by
        rw [relex_eq_map (c :: rest) hns, List.map_cons, hclass]
      obtain ⟨ps, hps, hpspm, hev⟩ := specGo_parse dv xw v rest.length rest le_rfl
        (v c) r (PyExpr.field c) (rest.map classify).length (by simp)
        (fun t ht hop2 => hpm t (List.mem_cons_of_mem c ht) hop2) rfl hs
      rw [pyEval, pyParse, hrel, List.length_cons,
        parseUexpF_col (rest.map classify).length c (rest.map classify)
          (map_classify_head_ne_pow rest)]
      dsimp only
      rw [hps]
      dsimp only
      rw [buildPrec_pm (PyExpr.field c) ps hpspm, ← hev]
      rfl

/-- C1, witness: the coincidence part of the amended claim applied at the
spec `[a, "-", b]` with `a=9, b=2`. -/
theorem c1_witness :
    pyEval (fun a _ => a) (fun a _ => a) (fun s => if s = "a" then 9 else 2)
      ["a", "-", "b"] = some 7 :=
  c1_theorem.1 (fun a _ => a) (fun a _ => a) (fun s => if s = "a" then 9 else 2)
    ["a", "-", "b"] 7 (by decide) (by decide)

/-! ## Claim C3: malformed operator sequences -/

/-- C3, counterexample: two sequences with consecutive operators that do not
fail at all.  `[a, "-", "-", b]`: CPython reads the second `-` as a unary
sign, the expression parses to `a - (-b)` and evaluates (Django has
`__neg__`) to `10 - (-3) = 13`.  `[a, "*", "*", b]`: CPython re-lexes the
adjacent `*` `*` to the single power operator `**`, the expression parses to
`a ** b` and evaluates (Django has `__pow__`) to `2 ** 5 = 32`.  (No
`InvalidExpressionError` exists anywhere in the code.) -/
theorem c3_counterexample :
    hasConsecOps ["a", "-", "-", "b"] = true ∧
    pyParse ["a", "-", "-", "b"] =
      some (PyExpr.bin "-" (PyExpr.field "a") (PyExpr.neg (PyExpr.field "b"))) ∧
    PyExpr.evalDj (fun a _ => a) (fun a b => a ^ b.toNat)
      (fun s => if s = "a" then 10 else 3)
      (PyExpr.bin "-" (PyExpr.field "a") (PyExpr.neg (PyExpr.field "b"))) = some 13 ∧
    hasConsecOps ["a", "*", "*", "b"] = true ∧
    pyParse ["a", "*", "*", "b"] =
      some (PyExpr.bin "**" (PyExpr.field "a") (PyExpr.field "b")) ∧
    PyExpr.evalDj (fun a _ => a) (fun a b => a ^ b.toNat)
      (fun s => if s = "a" then 2 else 5)
      (PyExpr.bin "**" (PyExpr.field "a") (PyExpr.field "b")) = some 32 :=
  ⟨by decide, by decide, by decide, by decide, by decide, by decide⟩

/-- C3, amended: no `InvalidExpressionError` exists in the code, and the
consecutive-operator rule is false in general (see the counterexample) — the
real failures are these.  `eval` fails with a CPython `SyntaxError` (the
parser produces no expression) for every sequence that starts with `*`, `/`
or `^`, ends with any operator, or contains an operator immediately followed
by `*`, `/` or `^` other than the re-lexed adjacent pairs `*`,`*` (power
`**`) and `/`,`/` (floor division `//`).  Separately, a parsed expression
whose top operator is unary `+` (Django `F`-expressions have no `__pos__`:
`TypeError`), `^` (`__xor__` raises `NotImplementedError`) or `//` (no
`__floordiv__`: `TypeError`) produces no value at Django's expression-build
step, for every operand and row. -/
theorem c3_theorem :
    (∀ toks : List String,
      startsWithHardOp toks = true ∨ endsWithOp toks = true ∨ hasBadPair toks = true →
      pyParse toks = none) ∧
    (∀ (dv pw : Int → Int → Int) (v : String → Int) (e : PyExpr),
      PyExpr.evalDj dv pw v (PyExpr.pos e) = none) ∧
    (∀ (dv pw : Int → Int → Int) (v : String → Int) (a b : PyExpr),
      PyExpr.evalDj dv pw v (PyExpr.bin "^" a b) = none) ∧
    (∀ (dv pw : Int → Int → Int) (v : String → Int) (a b : PyExpr),
      PyExpr.evalDj dv pw v (PyExpr.bin "//" a b) = none) := by
  refine ⟨?_, ?_, ?_, ?_⟩
  · intro toks h
    rcases h with h | h | h
    · cases toks with
      | nil => exact absurd h (by decide)
      | cons t rest =>
        rw [startsWithHardOp] at h
        have hcase : t = "*" ∨ t = "/" ∨ t = "^" := by
          have h' := h
          simp only [Bool.or_eq_true, beq_iff_eq] at h'
          rcases h' with (h' | h') | h'
          exacts [Or.inl h', Or.inr (Or.inl h'), Or.inr (Or.inr h')]
        obtain ⟨o, tl, hrel, hhard⟩ := relex_head_hard t rest hcase
        have hpu : parseUexpF (Tok.op o :: tl).length (Tok.op o :: tl) = none := by
          rw [List.length_cons, parseUexpF]
          have hno1 : ¬(o = "-") := by
            intro he
            subst he
            exact absurd hhard (by decide)
          have hno2 : ¬(o = "+") := by
            intro he
            subst he
            exact absurd hhard (by decide)
          rw [if_neg hno1, if_neg hno2]
        rw [pyParse, hrel, hpu]
    · cases hparse : pyParse toks with
      | none => rfl
      | some e =>
        exfalso
        rw [endsWithOp] at h
        cases hgl : toks.getLast? with
        | none => rw [hgl] at h; cases h
        | some t =>
          rw [hgl] at h
          dsimp only at h
          obtain ⟨o, ho⟩ := relex_ends_op toks.length toks le_rfl t hgl h
          rw [pyParse] at hparse
          cases hop : parseUexpF (relex toks).length (relex toks) with
          | none => rw [hop] at hparse; cases hparse
          | some p =>
            obtain ⟨e0, rest⟩ := p
            rw [hop] at hparse
            dsimp only at hparse
            cases htail : parseTailF rest.length rest with
            | none => rw [htail] at hparse; cases hparse
            | some ps =>
              obtain ⟨pre, c, hl⟩ := parseUexpF_split _ _ e0 rest hop
              rcases parseTailF_split rest.length rest ps htail with hrnil | ⟨pre2, c2, hr⟩
              · subst hrnil
                rw [hl, List.getLast?_concat] at ho
                simp at ho
              · rw [hr] at hl
                have hl2 : relex toks = (pre ++ Tok.col c :: pre2) ++ [Tok.col c2] := by
                  rw [hl]
                  simp
                rw [hl2, List.getLast?_concat] at ho
                simp at ho
    · cases hparse : pyParse toks with
      | none => rfl
      | some e =>
        exfalso
        have hbad := hasBadPair_relex toks.length toks le_rfl h
        rw [pyParse] at hparse
        cases hop : parseUexpF (relex toks).length (relex toks) with
        | none => rw [hop] at hparse; cases hparse
        | some p =>
          obtain ⟨e0, rest⟩ := p
          rw [hop] at hparse
          dsimp only at hparse
          cases htail : parseTailF rest.length rest with
          | none => rw [htail] at hparse; cases hparse
          | some ps =>
            rw [parseUexpF_badAdj _ _ e0 rest hop,
              parseTailF_badAdj rest.length rest ps htail] at hbad
            cases hbad
  · intro dv pw v e
    rfl
  · intro dv pw v a b
    rw [PyExpr.evalDj]
    cases PyExpr.evalDj dv pw v a <;> cases PyExpr.evalDj dv pw v b <;> rfl
  · intro dv pw v a b
    rw [PyExpr.evalDj]
    cases PyExpr.evalDj dv pw v a <;> cases PyExpr.evalDj dv pw v b <;> rfl

/-- C3, witness: the SyntaxError part applied at the sequence `[a, "+"]`,
which ends with an operator, and the Django part applied at `a ^ b`. -/
theorem c3_witness :
    pyParse ["a", "+"] = none ∧
    PyExpr.evalDj (fun a _ => a) (fun a b => a * b) (fun _ => 1)
      (PyExpr.bin "^" (PyExpr.field "a") (PyExpr.field "b")) = none :=
  ⟨c3_theorem.1 ["a", "+"] (Or.inr (Or.inl (by decide))),
   c3_theorem.2.2.1 (fun a _ => a) (fun a b => a * b) (fun _ => 1)
     (PyExpr.field "a") (PyExpr.field "b")⟩

end EasyApi
